import Mathlib

/-!
# Verification of the Divix debt-settlement core

Shallow embedding of the debt calculation utilities (`simplifyDebts`,
`simplifyCurrencyDebts`, `calculateNetBalances`, `optimizeSettlementOrder`,
`calculateUserExposure`, `validateDebtMatrix`, `groupBy`) from the Divix
repository, together with proofs and refutations of the specification claims.

Embedding conventions:
* JavaScript `number` values are modelled as exact rationals `ℚ`.
* A JavaScript `Map`/plain-object record with string keys is modelled as an
  association list `List (String × ℚ)` preserving insertion order; `set` on an
  existing key updates the value in place (keeping the original position), and
  adds a `(key, value)` entry at the end otherwise, exactly as JS `Map.set` and
  property assignment behave (currency codes are non-numeric strings, so JS
  object key enumeration order is insertion order).
* `Math.round x` is `⌊x + 1/2⌋` (round half toward +∞), JS semantics.
* `String.prototype.localeCompare` on distinct plain ASCII currency codes is
  modelled as lexicographic string comparison, returning -1/0/1.
* The two-pointer `while` loop of `simplifyCurrencyDebts` is modelled by the
  fuel-indexed recursion `matchGo`; the fuel `creditors.length + debtors.length`
  is proved sufficient (the loop advances at least one cursor per iteration),
  so the `Option.getD []` default is never taken.
-/

namespace Divix

/-- A directed debt: `from` owes `to` the stated `amount` in `currency`. -/
structure Debt where
  «from» : String
  «to» : String
  amount : ℚ
  currency : String
deriving DecidableEq, Repr

/-- A user's net balance in one currency. -/
structure UserBalance where
  userId : String
  balance : ℚ
  currency : String
deriving DecidableEq, Repr

/-- A settlement transaction. -/
structure Settlement where
  «from» : String
  «to» : String
  amount : ℚ
  currency : String
deriving DecidableEq, Repr

/-! ## Insertion-ordered string-keyed maps (JS `Map` / record objects) -/

/-- `map.get k || 0` of a JS `Map<string, number>`: first entry with the key,
`0` when absent. -/
def mapGet : List (String × ℚ) → String → ℚ
  | [], _ => 0
  | p :: m, k => if p.1 = k then p.2 else mapGet m k

/-- `map.set k v` of a JS `Map`: update in place when the key is present
(keeping its position), append otherwise. -/
def mapSet : List (String × ℚ) → String → ℚ → List (String × ℚ)
  | [], k, v => [(k, v)]
  | p :: m, k, v => if p.1 = k then (p.1, v) :: m else p :: mapSet m k v

@[simp] theorem mapGet_nil (k : String) : mapGet [] k = 0 := rfl

@[simp] theorem mapGet_cons (p : String × ℚ) (m : List (String × ℚ)) (k : String) :
    mapGet (p :: m) k = if p.1 = k then p.2 else mapGet m k := rfl

@[simp] theorem mapSet_nil (k : String) (v : ℚ) : mapSet [] k v = [(k, v)] := rfl

@[simp] theorem mapSet_cons (p : String × ℚ) (m : List (String × ℚ)) (k : String) (v : ℚ) :
    mapSet (p :: m) k v = if p.1 = k then (p.1, v) :: m else p :: mapSet m k v := rfl

theorem mapGet_mapSet_self (m : List (String × ℚ)) (k : String) (v : ℚ) :
    mapGet (mapSet m k v) k = v := by
  induction m with
  | nil => simp
  | cons p m ih =>
    by_cases h : p.1 = k <;> simp [h, ih]

theorem mapGet_mapSet_other (m : List (String × ℚ)) (k k' : String) (v : ℚ) (hk : k ≠ k') :
    mapGet (mapSet m k v) k' = mapGet m k' := by
  induction m with
  | nil => simp [hk]
  | cons p m ih =>
    by_cases h : p.1 = k
    · simp [h, hk]
    · by_cases h' : p.1 = k' <;> simp [h, h', Ne.symm hk, ih]

/-- Sum of the values of an association map. -/
def sumVals (m : List (String × ℚ)) : ℚ := (m.map Prod.snd).sum

@[simp] theorem sumVals_nil : sumVals [] = 0 := rfl

@[simp] theorem sumVals_cons (p : String × ℚ) (m : List (String × ℚ)) :
    sumVals (p :: m) = p.2 + sumVals m := by
  simp [sumVals]

theorem sumVals_mapSet (m : List (String × ℚ)) (k : String) (v : ℚ) :
    sumVals (mapSet m k v) = sumVals m + v - mapGet m k := by
  induction m with
  | nil => simp
  | cons p m ih =>
    by_cases h : p.1 = k
    · simp [h]; ring
    · simp [h, ih]; ring

/-! ## `calculateNetBalances` -/

/-- One step of the `debts.forEach` reduction of `calculateNetBalances`:
subtract the amount from the debtor's running balance, then add it to the
creditor's (the second `get` observes the first `set`). -/
def balanceStep (m : List (String × ℚ)) (d : Debt) : List (String × ℚ) :=
  let m1 := mapSet m d.«from» (mapGet m d.«from» - d.amount)
  mapSet m1 d.«to» (mapGet m1 d.«to» + d.amount)

/-- `calculateNetBalances`: fold all debts into a user-id-keyed balance map,
then emit one `UserBalance` per entry in insertion order. -/
def calculateNetBalances (debts : List Debt) (currency : String) : List UserBalance :=
  (debts.foldl balanceStep []).map (fun p => ⟨p.1, p.2, currency⟩)

/-! ## `simplifyCurrencyDebts` and its two-pointer loop -/

/-- `Math.round (q * 100) / 100`: round to two decimals, halves toward +∞. -/
def round2 (q : ℚ) : ℚ := (⌊q * 100 + 1 / 2⌋ : ℚ) / 100

/-- The two-pointer greedy matching loop of `simplifyCurrencyDebts`, with the
cursor movements expressed as list consumption: the head of each list is the
current creditor/debtor (carrying its working balance), entries behind a cursor
are dropped.  `fuel` bounds the number of iterations; `none` means the fuel ran
out before a cursor exhausted its list. -/
def matchGo (currency : String) : Nat → List UserBalance → List UserBalance →
    Option (List Settlement)
  | 0, _ :: _, _ :: _ => none
  | fuel + 1, c :: cs, d :: ds =>
    let t := min c.balance (-d.balance)
    let rest :=
      if |c.balance - t| < 1 / 100 then
        if |d.balance + t| < 1 / 100 then
          matchGo currency fuel cs ds
        else
          matchGo currency fuel cs ({ d with balance := d.balance + t } :: ds)
      else
        if |d.balance + t| < 1 / 100 then
          matchGo currency fuel ({ c with balance := c.balance - t } :: cs) ds
        else
          matchGo currency fuel ({ c with balance := c.balance - t } :: cs)
            ({ d with balance := d.balance + t } :: ds)
    if t > 1 / 100 then
      Option.map (fun l => ⟨d.userId, c.userId, round2 t, currency⟩ :: l) rest
    else rest
  | _, [], _ => some []
  | _, _ :: _, [] => some []

/-- `simplifyCurrencyDebts`: net balances, split into creditors and debtors by
the `0.01` epsilon, then run the greedy matching loop. -/
def simplifyCurrencyDebts (debts : List Debt) (currency : String) : List Settlement :=
  let balances := calculateNetBalances debts currency
  let creditors := balances.filter (fun b => b.balance > 1 / 100)
  let debtors := balances.filter (fun b => b.balance < -(1 / 100))
  (matchGo currency (creditors.length + debtors.length) creditors debtors).getD []

/-! ## `groupBy` (by currency) and `simplifyDebts` -/

/-- `groups[key] = groups[key] || []; groups[key].push(item)` for one debt. -/
def groupUpsert : List (String × List Debt) → String → Debt → List (String × List Debt)
  | [], k, d => [(k, [d])]
  | p :: g, k, d => if p.1 = k then (p.1, p.2 ++ [d]) :: g else p :: groupUpsert g k d

/-- `groupBy(debts, 'currency')` with `Object.entries` enumeration order
(insertion order, since currency codes are non-numeric string keys). -/
def groupByCurrency (debts : List Debt) : List (String × List Debt) :=
  debts.foldl (fun g d => groupUpsert g d.currency d) []

/-- `simplifyDebts`: early-return on the empty list, otherwise concatenate the
per-currency settlements in group order. -/
def simplifyDebts (debts : List Debt) : List Settlement :=
  if debts.isEmpty then []
  else (groupByCurrency debts).flatMap (fun p => simplifyCurrencyDebts p.2 p.1)

/-! ## `optimizeSettlementOrder` -/

/-- Lexicographic comparison of char lists (by Unicode scalar value), the
order realised by `localeCompare` on plain ASCII currency codes. -/
def strLtB : List Char → List Char → Bool
  | [], [] => false
  | [], _ :: _ => true
  | _ :: _, [] => false
  | a :: as, b :: bs => if a < b then true else if b < a then false else strLtB as bs

/-- `a.localeCompare b` modelled for plain ASCII currency codes: the sign of
the lexicographic comparison, as -1 / 0 / 1. -/
def localeCompare (a b : String) : ℤ :=
  if strLtB a.data b.data then -1 else if strLtB b.data a.data then 1 else 0

/-- The comparator passed to `Array.prototype.sort`: equal currencies compare
by `b.amount - a.amount`; different currencies by
`a.currency.localeCompare(b.currency) || (b.amount - a.amount)`
(`x || y` is `y` when the number `x` is `0`, else `x`). -/
def settleCmp (a b : Settlement) : ℚ :=
  if a.currency = b.currency then b.amount - a.amount
  else
    if localeCompare a.currency b.currency = 0 then b.amount - a.amount
    else (localeCompare a.currency b.currency : ℚ)

/-- Insert into an already comparator-sorted list, after all elements that do
not compare strictly greater: the unique stable position. -/
def insertSettle (x : Settlement) : List Settlement → List Settlement
  | [] => [x]
  | y :: l => if settleCmp x y < 0 then x :: y :: l else y :: insertSettle x l

/-- `optimizeSettlementOrder`: `[...settlements].sort(comparator)`.
ECMAScript mandates a stable sort whose output is ordered by the comparator;
for a consistent comparator that output is unique, so any stable sorting
algorithm is a faithful model — here, left-to-right insertion sort. -/
def optimizeSettlementOrder (settlements : List Settlement) : List Settlement :=
  settlements.foldl (fun acc x => insertSettle x acc) []

/-! ## `calculateUserExposure` -/

/-- The exposure record: per-currency totals owed to and owed by one user. -/
structure Exposure where
  totalOwed : List (String × ℚ)
  totalOwing : List (String × ℚ)
deriving DecidableEq, Repr

/-- One step of `calculateUserExposure`'s `forEach`: note the `else if` — a
debt with `to == userId` never reaches the `from == userId` branch. -/
def exposureStep (userId : String) (e : Exposure) (d : Debt) : Exposure :=
  if d.«to» = userId then
    { e with totalOwed := mapSet e.totalOwed d.currency (mapGet e.totalOwed d.currency + d.amount) }
  else if d.«from» = userId then
    { e with totalOwing := mapSet e.totalOwing d.currency (mapGet e.totalOwing d.currency + d.amount) }
  else e

/-- `calculateUserExposure`. -/
def calculateUserExposure (userId : String) (debts : List Debt) : Exposure :=
  debts.foldl (exposureStep userId) ⟨[], []⟩

/-! ## `validateDebtMatrix` -/

/-- The validator's result record. -/
structure ValidationResult where
  isValid : Bool
  issues : List String
deriving DecidableEq, Repr

/-- `validateDebtMatrix`: first `forEach` pushes an issue per non-positive
amount and re-stores each currency's running total unchanged (`set current`),
then the second `forEach` pushes an issue per currency total exceeding the
epsilon in magnitude. -/
def validateDebtMatrix (debts : List Debt) : ValidationResult :=
  let first := debts.foldl
    (fun (acc : List String × List (String × ℚ)) d =>
      let issues :=
        if d.amount ≤ 0 then
          acc.1 ++ ["Invalid debt amount: " ++ toString d.amount ++ " between "
            ++ d.«from» ++ " and " ++ d.«to»]
        else acc.1
      (issues, mapSet acc.2 d.currency (mapGet acc.2 d.currency)))
    ([], [])
  let issues := first.2.foldl
    (fun iss p =>
      if |p.2| > 1 / 100 then
        iss ++ ["Currency " ++ p.1 ++ " total should be zero, but is " ++ toString p.2]
      else iss)
    first.1
  ⟨issues.isEmpty, issues⟩

/-! ## Harness definitions used to state the claims (not part of the source) -/

/-- Net balance change that a settlement list applies to user `u` when each
settlement moves its `amount` from `from` to `to`: `from` gains `amount`
toward zero (their debt is discharged), `to` loses `amount` of credit. -/
def settDelta (u : String) (x : Settlement) : ℚ :=
  (if x.«from» = u then x.amount else 0) - (if x.«to» = u then x.amount else 0)

/-- Total balance change applied to `u` by a settlement list. -/
def netDelta (u : String) (s : List Settlement) : ℚ := (s.map (settDelta u)).sum

/-- Apply settlements to balances in the direction that discharges them:
each settlement's amount is added to the `from` user's balance and subtracted
from the `to` user's balance (as the matcher's own working updates do). -/
def applyDischarge (bs : List UserBalance) (s : List Settlement) : List UserBalance :=
  s.foldl
    (fun bs x => bs.map (fun b =>
      { b with balance := b.balance + (if x.«from» = b.userId then x.amount else 0)
          - (if x.«to» = b.userId then x.amount else 0) }))
    bs

/-- Apply settlements to balances exactly as C4 words it: subtract each
settlement's amount from the `from` user's balance and add it to the `to`
user's balance. -/
def applyClaimed (bs : List UserBalance) (s : List Settlement) : List UserBalance :=
  s.foldl
    (fun bs x => bs.map (fun b =>
      { b with balance := b.balance - (if x.«from» = b.userId then x.amount else 0)
          + (if x.«to» = b.userId then x.amount else 0) }))
    bs

/-- First balance recorded for user `u` (0 when absent). -/
def lookupBal : List UserBalance → String → ℚ
  | [], _ => 0
  | b :: bs, u => if b.userId = u then b.balance else lookupBal bs u

/-! ## Arithmetic helper lemmas -/

/-- `q` is an integer rational. -/
def IsIntQ (q : ℚ) : Prop := ∃ n : ℤ, q = (n : ℚ)

theorem IsIntQ.add {a b : ℚ} (ha : IsIntQ a) (hb : IsIntQ b) : IsIntQ (a + b) := by
  obtain ⟨m, rfl⟩ := ha; obtain ⟨n, rfl⟩ := hb
  exact ⟨m + n, by push_cast; ring⟩

theorem IsIntQ.sub {a b : ℚ} (ha : IsIntQ a) (hb : IsIntQ b) : IsIntQ (a - b) := by
  obtain ⟨m, rfl⟩ := ha; obtain ⟨n, rfl⟩ := hb
  exact ⟨m - n, by push_cast; ring⟩

theorem IsIntQ.neg {a : ℚ} (ha : IsIntQ a) : IsIntQ (-a) := by
  obtain ⟨m, rfl⟩ := ha
  exact ⟨-m, by push_cast; ring⟩

theorem IsIntQ.min {a b : ℚ} (ha : IsIntQ a) (hb : IsIntQ b) : IsIntQ (min a b) := by
  rcases min_choice a b with h | h <;> rw [h]
  · exact ha
  · exact hb

theorem IsIntQ.zero : IsIntQ 0 := ⟨0, by norm_num⟩

/-- An integer rational of absolute value below the epsilon is zero. -/
theorem IsIntQ.eq_zero_of_abs_lt {q : ℚ} (hq : IsIntQ q) (h : |q| < 1 / 100) : q = 0 := by
  obtain ⟨n, rfl⟩ := hq
  by_contra hne
  have hn : n ≠ 0 := by rintro rfl; exact hne (by norm_num)
  have h1 : (1 : ℤ) ≤ |n| := Int.one_le_abs hn
  have h1q : (1 : ℚ) ≤ |(n : ℚ)| := by
    rw [← Int.cast_abs]
    exact_mod_cast h1
  linarith

/-- An integer rational above the epsilon is at least 1. -/
theorem IsIntQ.one_le_of_eps_lt {q : ℚ} (hq : IsIntQ q) (h : 1 / 100 < q) : 1 ≤ q := by
  obtain ⟨n, rfl⟩ := hq
  have hn : 0 < n := by exact_mod_cast lt_of_le_of_lt (by norm_num : (0 : ℚ) ≤ 1 / 100) h
  exact_mod_cast hn

/-- An integer rational below minus the epsilon is at most -1. -/
theorem IsIntQ.le_neg_one_of_lt_neg_eps {q : ℚ} (hq : IsIntQ q) (h : q < -(1 / 100)) :
    q ≤ -1 := by
  obtain ⟨n, rfl⟩ := hq
  have hn : n < 0 := by exact_mod_cast lt_of_lt_of_le h (by norm_num : -(1 / 100 : ℚ) ≤ 0)
  have hn1 : n ≤ -1 := by omega
  exact_mod_cast hn1

/-- `round2` fixes integers. -/
theorem round2_of_isIntQ {q : ℚ} (hq : IsIntQ q) : round2 q = q := by
  obtain ⟨n, rfl⟩ := hq
  have hfloor : ⌊(n : ℚ) * 100 + 1 / 2⌋ = n * 100 := by
    rw [Int.floor_eq_iff]
    constructor
    · push_cast; linarith
    · push_cast; linarith
  rw [round2, hfloor]
  push_cast
  field_simp

/-- Rounding a transfer that clears the epsilon keeps it positive. -/
theorem round2_pos {q : ℚ} (h : 1 / 100 < q) : 0 < round2 q := by
  have hfloor : (1 : ℤ) ≤ ⌊q * 100 + 1 / 2⌋ := by
    rw [Int.le_floor]
    push_cast
    linarith
  have hq : (1 : ℚ) ≤ (⌊q * 100 + 1 / 2⌋ : ℚ) := by exact_mod_cast hfloor
  rw [round2]
  linarith

/-! ## `lookupBal`, `netDelta` and `applyDischarge` lemmas -/

@[simp] theorem lookupBal_nil (u : String) : lookupBal [] u = 0 := rfl

@[simp] theorem lookupBal_cons (b : UserBalance) (bs : List UserBalance) (u : String) :
    lookupBal (b :: bs) u = if b.userId = u then b.balance else lookupBal bs u := rfl

theorem lookupBal_eq_zero_of_not_mem {bs : List UserBalance} {u : String}
    (h : u ∉ bs.map UserBalance.userId) : lookupBal bs u = 0 := by
  induction bs with
  | nil => rfl
  | cons b bs ih =>
    simp only [List.map_cons, List.mem_cons, not_or] at h
    simp [Ne.symm h.1, ih h.2]

theorem lookupBal_of_mem {bs : List UserBalance} {b : UserBalance}
    (hnd : (bs.map UserBalance.userId).Nodup) (hb : b ∈ bs) :
    lookupBal bs b.userId = b.balance := by
  induction bs with
  | nil => cases hb
  | cons b' bs ih =>
    simp only [List.map_cons, List.nodup_cons] at hnd
    rcases List.mem_cons.mp hb with rfl | hb'
    · simp
    · have hne : b'.userId ≠ b.userId := fun h => hnd.1 (h ▸ List.mem_map_of_mem _ hb')
      simp [hne, ih hnd.2 hb']

@[simp] theorem netDelta_nil (u : String) : netDelta u [] = 0 := rfl

@[simp] theorem netDelta_cons (u : String) (x : Settlement) (s : List Settlement) :
    netDelta u (x :: s) = settDelta u x + netDelta u s := by
  simp [netDelta]

/-- `applyDischarge` shifts every balance by the user's total `netDelta`. -/
theorem applyDischarge_eq (bs : List UserBalance) (s : List Settlement) :
    applyDischarge bs s =
      bs.map (fun b => ⟨b.userId, b.balance + netDelta b.userId s, b.currency⟩) := by
  induction s generalizing bs with
  | nil =>
    simp only [applyDischarge, List.foldl_nil, netDelta_nil, add_zero]
    exact (List.map_id'' (fun b => rfl) bs).symm
  | cons x s ih =>
    have hstep : applyDischarge bs (x :: s) =
        applyDischarge
          (bs.map (fun b =>
            { b with balance := b.balance + (if x.«from» = b.userId then x.amount else 0)
                - (if x.«to» = b.userId then x.amount else 0) })) s := rfl
    rw [hstep, ih, List.map_map]
    refine List.map_congr_left fun b _ => ?_
    simp only [Function.comp]
    congr 1
    rw [netDelta_cons, settDelta]
    ring

/-! ## `matchGo` lemmas -/

@[simp] theorem matchGo_nil_left (currency : String) (fuel : Nat) (ds : List UserBalance) :
    matchGo currency fuel [] ds = some [] := by
  cases fuel <;> cases ds <;> rfl

@[simp] theorem matchGo_nil_right (currency : String) (fuel : Nat) (c : UserBalance)
    (cs : List UserBalance) : matchGo currency fuel (c :: cs) [] = some [] := by
  cases fuel <;> rfl

@[simp] theorem matchGo_zero_cons (currency : String) (c d : UserBalance)
    (cs ds : List UserBalance) : matchGo currency 0 (c :: cs) (d :: ds) = none := rfl

theorem matchGo_cons_cons (currency : String) (fuel : Nat) (c d : UserBalance)
    (cs ds : List UserBalance) :
    matchGo currency (fuel + 1) (c :: cs) (d :: ds) =
      if min c.balance (-d.balance) > 1 / 100 then
        Option.map
          (fun l => ⟨d.userId, c.userId, round2 (min c.balance (-d.balance)), currency⟩ :: l)
          (if |c.balance - min c.balance (-d.balance)| < 1 / 100 then
            if |d.balance + min c.balance (-d.balance)| < 1 / 100 then
              matchGo currency fuel cs ds
            else
              matchGo currency fuel cs
                ({ d with balance := d.balance + min c.balance (-d.balance) } :: ds)
          else
            if |d.balance + min c.balance (-d.balance)| < 1 / 100 then
              matchGo currency fuel
                ({ c with balance := c.balance - min c.balance (-d.balance) } :: cs) ds
            else
              matchGo currency fuel
                ({ c with balance := c.balance - min c.balance (-d.balance) } :: cs)
                ({ d with balance := d.balance + min c.balance (-d.balance) } :: ds))
      else
        (if |c.balance - min c.balance (-d.balance)| < 1 / 100 then
          if |d.balance + min c.balance (-d.balance)| < 1 / 100 then
            matchGo currency fuel cs ds
          else
            matchGo currency fuel cs
              ({ d with balance := d.balance + min c.balance (-d.balance) } :: ds)
        else
          if |d.balance + min c.balance (-d.balance)| < 1 / 100 then
            matchGo currency fuel
              ({ c with balance := c.balance - min c.balance (-d.balance) } :: cs) ds
          else
            matchGo currency fuel
              ({ c with balance := c.balance - min c.balance (-d.balance) } :: cs)
              ({ d with balance := d.balance + min c.balance (-d.balance) } :: ds)) := rfl

/-- In every iteration the transfer `min c.balance (-d.balance)` equals one of
the two sides, so it drives the creditor's or the debtor's working balance to
exactly `0`. -/
theorem matchGo_drop (c d : UserBalance) :
    c.balance - min c.balance (-d.balance) = 0 ∨
      d.balance + min c.balance (-d.balance) = 0 := by
  rcases min_choice c.balance (-d.balance) with h | h
  · left; rw [h]; ring
  · right; rw [h]; ring

/-- Fuel `creditors.length + debtors.length` always suffices (each iteration
consumes at least one list entry), and the loop emits at most one settlement
per iteration, hence at most `c + d - 1` of them. -/
theorem matchGo_total (currency : String) :
    ∀ (fuel : Nat) (cs ds : List UserBalance), cs.length + ds.length ≤ fuel →
      ∃ s, matchGo currency fuel cs ds = some s ∧
        s.length ≤ cs.length + ds.length - 1 := by
  intro fuel
  induction fuel with
  | zero =>
    intro cs ds h
    match cs, ds with
    | [], ds => exact ⟨[], matchGo_nil_left _ _ _, by simp⟩
    | c :: cs, [] => exact ⟨[], matchGo_nil_right _ _ _ _, by simp⟩
    | c :: cs, d :: ds => simp [List.length_cons] at h
  | succ fuel ih =>
    intro cs ds h
    match cs, ds with
    | [], ds => exact ⟨[], matchGo_nil_left _ _ _, by simp⟩
    | c :: cs, [] => exact ⟨[], matchGo_nil_right _ _ _ _, by simp⟩
    | c :: cs, d :: ds =>
      rw [matchGo_cons_cons]
      simp only [List.length_cons] at h
      by_cases h1 : |c.balance - min c.balance (-d.balance)| < 1 / 100
      · by_cases h2 : |d.balance + min c.balance (-d.balance)| < 1 / 100
        · obtain ⟨s, hs, hlen⟩ := ih cs ds (by omega)
          rw [if_pos h1, if_pos h2, hs]
          by_cases h3 : min c.balance (-d.balance) > 1 / 100
          · rw [if_pos h3]
            exact ⟨_, rfl, by simp only [List.length_cons]; omega⟩
          · rw [if_neg h3]
            exact ⟨s, rfl, by simp only [List.length_cons]; omega⟩
        · obtain ⟨s, hs, hlen⟩ :=
            ih cs ({ d with balance := d.balance + min c.balance (-d.balance) } :: ds)
              (by simp only [List.length_cons]; omega)
          rw [if_pos h1, if_neg h2, hs]
          simp only [List.length_cons] at hlen
          by_cases h3 : min c.balance (-d.balance) > 1 / 100
          · rw [if_pos h3]
            exact ⟨_, rfl, by simp only [List.length_cons]; omega⟩
          · rw [if_neg h3]
            exact ⟨s, rfl, by simp only [List.length_cons]; omega⟩
      · by_cases h2 : |d.balance + min c.balance (-d.balance)| < 1 / 100
        · obtain ⟨s, hs, hlen⟩ :=
            ih ({ c with balance := c.balance - min c.balance (-d.balance) } :: cs) ds
              (by simp only [List.length_cons]; omega)
          rw [if_neg h1, if_pos h2, hs]
          simp only [List.length_cons] at hlen
          by_cases h3 : min c.balance (-d.balance) > 1 / 100
          · rw [if_pos h3]
            exact ⟨_, rfl, by simp only [List.length_cons]; omega⟩
          · rw [if_neg h3]
            exact ⟨s, rfl, by simp only [List.length_cons]; omega⟩
        · exfalso
          rcases matchGo_drop c d with h0 | h0
          · exact h1 (by rw [h0]; norm_num)
          · exact h2 (by rw [h0]; norm_num)

/-- Every settlement `matchGo` emits has positive amount, surviving rounding:
it is only emitted when the exact transfer exceeds the `0.01` epsilon. -/
theorem matchGo_amount_pos (currency : String) :
    ∀ (fuel : Nat) (cs ds : List UserBalance) (s : List Settlement),
      matchGo currency fuel cs ds = some s → ∀ x ∈ s, 0 < x.amount := by
  intro fuel
  induction fuel with
  | zero =>
    intro cs ds s hs x hx
    match cs, ds with
    | [], ds =>
      rw [matchGo_nil_left] at hs
      cases hs; cases hx
    | c :: cs, [] =>
      rw [matchGo_nil_right] at hs
      cases hs; cases hx
    | c :: cs, d :: ds =>
      rw [matchGo_zero_cons] at hs
      cases hs
  | succ fuel ih =>
    intro cs ds s hs x hx
    match cs, ds with
    | [], ds =>
      rw [matchGo_nil_left] at hs
      cases hs; cases hx
    | c :: cs, [] =>
      rw [matchGo_nil_right] at hs
      cases hs; cases hx
    | c :: cs, d :: ds =>
      rw [matchGo_cons_cons] at hs
      by_cases h1 : |c.balance - min c.balance (-d.balance)| < 1 / 100
      · by_cases h2 : |d.balance + min c.balance (-d.balance)| < 1 / 100
        · rw [if_pos h1, if_pos h2] at hs
          by_cases h3 : min c.balance (-d.balance) > 1 / 100
          · rw [if_pos h3] at hs
            rcases Option.map_eq_some'.mp hs with ⟨l, hl, rfl⟩
            rcases List.mem_cons.mp hx with rfl | hxl
            · exact round2_pos h3
            · exact ih _ _ l hl x hxl
          · rw [if_neg h3] at hs
            exact ih _ _ s hs x hx
        · rw [if_pos h1, if_neg h2] at hs
          by_cases h3 : min c.balance (-d.balance) > 1 / 100
          · rw [if_pos h3] at hs
            rcases Option.map_eq_some'.mp hs with ⟨l, hl, rfl⟩
            rcases List.mem_cons.mp hx with rfl | hxl
            · exact round2_pos h3
            · exact ih _ _ l hl x hxl
          · rw [if_neg h3] at hs
            exact ih _ _ s hs x hx
      · by_cases h2 : |d.balance + min c.balance (-d.balance)| < 1 / 100
        · rw [if_neg h1, if_pos h2] at hs
          by_cases h3 : min c.balance (-d.balance) > 1 / 100
          · rw [if_pos h3] at hs
            rcases Option.map_eq_some'.mp hs with ⟨l, hl, rfl⟩
            rcases List.mem_cons.mp hx with rfl | hxl
            · exact round2_pos h3
            · exact ih _ _ l hl x hxl
          · rw [if_neg h3] at hs
            exact ih _ _ s hs x hx
        · rw [if_neg h1, if_neg h2] at hs
          by_cases h3 : min c.balance (-d.balance) > 1 / 100
          · rw [if_pos h3] at hs
            rcases Option.map_eq_some'.mp hs with ⟨l, hl, rfl⟩
            rcases List.mem_cons.mp hx with rfl | hxl
            · exact round2_pos h3
            · exact ih _ _ l hl x hxl
          · rw [if_neg h3] at hs
            exact ih _ _ s hs x hx

/-! ## `calculateNetBalances` lemmas -/

/-- Each debt moves its amount from one running balance to another, leaving the
total unchanged. -/
theorem sumVals_balanceStep (m : List (String × ℚ)) (d : Debt) :
    sumVals (balanceStep m d) = sumVals m := by
  unfold balanceStep
  rw [sumVals_mapSet, sumVals_mapSet]
  ring

theorem sumVals_foldl_balanceStep (debts : List Debt) :
    ∀ m : List (String × ℚ), sumVals (debts.foldl balanceStep m) = sumVals m := by
  induction debts with
  | nil => intro m; rfl
  | cons d debts ih =>
    intro m
    rw [List.foldl_cons, ih, sumVals_balanceStep]

/-- Per-user effect of one `balanceStep`: the amount is credited to `to` and
debited from `from`, whatever its sign (the `from = to` overlap cancels). -/
theorem mapGet_balanceStep (m : List (String × ℚ)) (d : Debt) (u : String) :
    mapGet (balanceStep m d) u =
      mapGet m u + (if d.«to» = u then d.amount else 0)
        - (if d.«from» = u then d.amount else 0) := by
  unfold balanceStep
  by_cases hto : d.«to» = u
  · subst hto
    rw [mapGet_mapSet_self]
    by_cases hft : d.«from» = d.«to»
    · rw [hft, mapGet_mapSet_self]
      simp [hft]
    · rw [mapGet_mapSet_other _ _ _ _ hft]
      simp [hft]
  · rw [mapGet_mapSet_other _ _ _ _ (fun h => hto h)]
    by_cases hfu : d.«from» = u
    · subst hfu
      rw [mapGet_mapSet_self]
      simp [hto]
    · rw [mapGet_mapSet_other _ _ _ _ hfu]
      simp [hto, hfu]

theorem mapGet_foldl_balanceStep (debts : List Debt) :
    ∀ (m : List (String × ℚ)) (u : String),
      mapGet (debts.foldl balanceStep m) u =
        mapGet m u +
          (debts.map (fun d => (if d.«to» = u then d.amount else 0)
            - (if d.«from» = u then d.amount else 0))).sum := by
  induction debts with
  | nil => intro m u; simp
  | cons d debts ih =>
    intro m u
    rw [List.foldl_cons, ih, mapGet_balanceStep]
    simp only [List.map_cons, List.sum_cons]
    ring

/-- `lookupBal` on the emitted balance list is `mapGet` on the folded map. -/
theorem lookupBal_calculateNetBalances (m : List (String × ℚ)) (currency u : String) :
    lookupBal (m.map (fun p => ⟨p.1, p.2, currency⟩)) u = mapGet m u := by
  induction m with
  | nil => rfl
  | cons p m ih => by_cases h : p.1 = u <;> simp [h, ih]

/-- Filtered-amount sums rewritten as sums of guarded terms. -/
theorem sum_filter_amount (debts : List Debt) (p : Debt → Bool) :
    ((debts.filter p).map Debt.amount).sum =
      (debts.map (fun d => if p d then d.amount else 0)).sum := by
  induction debts with
  | nil => rfl
  | cons d debts ih =>
    by_cases h : p d <;> simp [List.filter_cons, h, ih]

/-! ### Keys of the balance map -/

theorem mem_keys_mapSet (m : List (String × ℚ)) (k a : String) (v : ℚ) :
    a ∈ (mapSet m k v).map Prod.fst ↔ a ∈ m.map Prod.fst ∨ a = k := by
  induction m with
  | nil => simp
  | cons p m ih =>
    by_cases h : p.1 = k
    · subst h; simp; tauto
    · simp only [mapSet_cons, if_neg h, List.map_cons, List.mem_cons, ih]
      tauto

theorem nodup_keys_mapSet (m : List (String × ℚ)) (k : String) (v : ℚ)
    (h : (m.map Prod.fst).Nodup) : ((mapSet m k v).map Prod.fst).Nodup := by
  induction m with
  | nil => simp
  | cons p m ih =>
    simp only [List.map_cons, List.nodup_cons] at h
    by_cases hp : p.1 = k
    · subst hp; simpa using h
    · simp only [mapSet_cons, if_neg hp, List.map_cons, List.nodup_cons]
      refine ⟨fun hmem => ?_, ih h.2⟩
      rcases (mem_keys_mapSet m k p.1 v).mp hmem with hm | he
      · exact h.1 hm
      · exact hp he

theorem nodup_keys_balanceStep (m : List (String × ℚ)) (d : Debt)
    (h : (m.map Prod.fst).Nodup) : ((balanceStep m d).map Prod.fst).Nodup :=
  nodup_keys_mapSet _ _ _ (nodup_keys_mapSet _ _ _ h)

theorem nodup_keys_foldl_balanceStep (debts : List Debt) :
    ∀ m : List (String × ℚ), (m.map Prod.fst).Nodup →
      ((debts.foldl balanceStep m).map Prod.fst).Nodup := by
  induction debts with
  | nil => intro m h; exact h
  | cons d debts ih =>
    intro m h
    exact ih _ (nodup_keys_balanceStep m d h)

/-- The emitted balance list has pairwise distinct user ids. -/
theorem calculateNetBalances_nodup (debts : List Debt) (currency : String) :
    ((calculateNetBalances debts currency).map UserBalance.userId).Nodup := by
  unfold calculateNetBalances
  rw [List.map_map]
  exact nodup_keys_foldl_balanceStep debts [] (by simp)

/-! ### Integrality of balances for integer-amount ledgers -/

theorem mapGet_isIntQ {m : List (String × ℚ)} (h : ∀ p ∈ m, IsIntQ p.2) (u : String) :
    IsIntQ (mapGet m u) := by
  induction m with
  | nil => exact IsIntQ.zero
  | cons p m ih =>
    by_cases hp : p.1 = u
    · simpa [hp] using h p (List.mem_cons_self p m)
    · simp only [mapGet_cons, if_neg hp]
      exact ih (fun q hq => h q (List.mem_cons_of_mem p hq))

theorem mapSet_isIntQ {m : List (String × ℚ)} (h : ∀ p ∈ m, IsIntQ p.2) {v : ℚ}
    (hv : IsIntQ v) (k : String) : ∀ p ∈ mapSet m k v, IsIntQ p.2 := by
  induction m with
  | nil => intro p hp; simp at hp; simp [hp, hv]
  | cons q m ih =>
    intro p hp
    by_cases hq : q.1 = k
    · rw [mapSet_cons, if_pos hq] at hp
      rcases List.mem_cons.mp hp with rfl | hm
      · exact hv
      · exact h p (List.mem_cons_of_mem q hm)
    · rw [mapSet_cons, if_neg hq] at hp
      rcases List.mem_cons.mp hp with hpq | hm
      · rw [hpq]; exact h q (List.mem_cons_self q m)
      · exact ih (fun r hr => h r (List.mem_cons_of_mem q hr)) p hm

theorem balanceStep_isIntQ {m : List (String × ℚ)} (h : ∀ p ∈ m, IsIntQ p.2) {d : Debt}
    (hd : IsIntQ d.amount) : ∀ p ∈ balanceStep m d, IsIntQ p.2 := by
  unfold balanceStep
  have h1 := mapSet_isIntQ h ((mapGet_isIntQ h d.«from»).sub hd) d.«from»
  exact mapSet_isIntQ h1 ((mapGet_isIntQ h1 d.«to»).add hd) d.«to»

theorem foldl_balanceStep_isIntQ (debts : List Debt) (hdebts : ∀ d ∈ debts, IsIntQ d.amount) :
    ∀ m : List (String × ℚ), (∀ p ∈ m, IsIntQ p.2) →
      ∀ p ∈ debts.foldl balanceStep m, IsIntQ p.2 := by
  induction debts with
  | nil => intro m h; exact h
  | cons d debts ih =>
    intro m h
    exact ih (fun e he => hdebts e (List.mem_cons_of_mem d he)) _
      (balanceStep_isIntQ h (hdebts d (List.mem_cons_self d debts)))

/-- With integer debt amounts every net balance is an integer. -/
theorem calculateNetBalances_isIntQ {debts : List Debt}
    (hdebts : ∀ d ∈ debts, IsIntQ d.amount) (currency : String) :
    ∀ b ∈ calculateNetBalances debts currency, IsIntQ b.balance := by
  intro b hb
  unfold calculateNetBalances at hb
  rcases List.mem_map.mp hb with ⟨p, hp, rfl⟩
  exact foldl_balanceStep_isIntQ debts hdebts [] (by simp) p hp

/-! ## Full discharge of integer-amount ledgers -/

theorem IsIntQ.one_le_of_pos {q : ℚ} (hq : IsIntQ q) (h : 0 < q) : 1 ≤ q := by
  obtain ⟨n, rfl⟩ := hq
  have hn : 0 < n := by exact_mod_cast h
  exact_mod_cast hn

theorem IsIntQ.le_neg_one_of_neg {q : ℚ} (hq : IsIntQ q) (h : q < 0) : q ≤ -1 := by
  obtain ⟨n, rfl⟩ := hq
  have hn : n < 0 := by exact_mod_cast h
  have hn1 : n ≤ -1 := by omega
  exact_mod_cast hn1

theorem sum_le_zero_of_forall {l : List ℚ} (h : ∀ x ∈ l, x ≤ 0) : l.sum ≤ 0 := by
  induction l with
  | nil => simp
  | cons x l ih =>
    rw [List.sum_cons]
    have hx := h x (List.mem_cons_self x l)
    have hl := ih (fun y hy => h y (List.mem_cons_of_mem x hy))
    linarith

theorem zero_le_sum_of_forall {l : List ℚ} (h : ∀ x ∈ l, 0 ≤ x) : 0 ≤ l.sum := by
  induction l with
  | nil => simp
  | cons x l ih =>
    rw [List.sum_cons]
    have hx := h x (List.mem_cons_self x l)
    have hl := ih (fun y hy => h y (List.mem_cons_of_mem x hy))
    linarith

/-- A creditor list whose balances are all at least 1 but sum to at most 0 is
empty. -/
theorem creditors_nil {cs : List UserBalance} (h1 : ∀ b ∈ cs, 1 ≤ b.balance)
    (hsum : (cs.map UserBalance.balance).sum ≤ 0) : cs = [] := by
  cases cs with
  | nil => rfl
  | cons c cs =>
    exfalso
    rw [List.map_cons, List.sum_cons] at hsum
    have hc := h1 c (List.mem_cons_self c cs)
    have hrest : 0 ≤ (cs.map UserBalance.balance).sum := by
      apply zero_le_sum_of_forall
      intro x hx
      rcases List.mem_map.mp hx with ⟨b, hb, rfl⟩
      have := h1 b (List.mem_cons_of_mem c hb)
      linarith
    linarith

/-- A debtor list whose balances are all at most -1 but sum to at least 0 is
empty. -/
theorem debtors_nil {ds : List UserBalance} (h1 : ∀ b ∈ ds, b.balance ≤ -1)
    (hsum : 0 ≤ (ds.map UserBalance.balance).sum) : ds = [] := by
  cases ds with
  | nil => rfl
  | cons d ds =>
    exfalso
    rw [List.map_cons, List.sum_cons] at hsum
    have hd := h1 d (List.mem_cons_self d ds)
    have hrest : (ds.map UserBalance.balance).sum ≤ 0 := by
      apply sum_le_zero_of_forall
      intro x hx
      rcases List.mem_map.mp hx with ⟨b, hb, rfl⟩
      have := h1 b (List.mem_cons_of_mem d hb)
      linarith
    linarith

/-- Core invariant of the greedy loop on an integer-balanced ledger: it runs to
completion, every transfer is emitted unrounded, and the emitted settlements
move each user's balance by exactly minus their initial balance. -/
theorem matchGo_discharge (currency : String) :
    ∀ (fuel : Nat) (cs ds : List UserBalance),
      cs.length + ds.length ≤ fuel →
      (∀ b ∈ cs, IsIntQ b.balance ∧ 1 ≤ b.balance) →
      (∀ b ∈ ds, IsIntQ b.balance ∧ b.balance ≤ -1) →
      (cs.map UserBalance.balance).sum + (ds.map UserBalance.balance).sum = 0 →
      (((cs ++ ds).map UserBalance.userId).Nodup) →
      ∃ s, matchGo currency fuel cs ds = some s ∧
        ∀ u, netDelta u s = -(lookupBal cs u) - lookupBal ds u := by
  intro fuel
  induction fuel with
  | zero =>
    intro cs ds hlen hcs hds hsum hnd
    match cs, ds with
    | [], ds =>
      have hds0 : ds = [] := by
        apply debtors_nil (fun b hb => (hds b hb).2)
        simp only [List.map_nil, List.sum_nil, zero_add] at hsum
        exact hsum.ge
      subst hds0
      exact ⟨[], matchGo_nil_left _ _ _, fun u => by simp⟩
    | c :: cs, [] =>
      exfalso
      have hnil : c :: cs = [] := by
        apply creditors_nil (fun b hb => (hcs b hb).2)
        simp only [List.map_nil, List.sum_nil, add_zero] at hsum
        exact hsum.le
      simp at hnil
    | c :: cs, d :: ds => simp [List.length_cons] at hlen
  | succ fuel ih =>
    intro cs ds hlen hcs hds hsum hnd
    match cs, ds with
    | [], ds =>
      have hds0 : ds = [] := by
        apply debtors_nil (fun b hb => (hds b hb).2)
        simp only [List.map_nil, List.sum_nil, zero_add] at hsum
        exact hsum.ge
      subst hds0
      exact ⟨[], matchGo_nil_left _ _ _, fun u => by simp⟩
    | c :: cs, [] =>
      exfalso
      have hnil : c :: cs = [] := by
        apply creditors_nil (fun b hb => (hcs b hb).2)
        simp only [List.map_nil, List.sum_nil, add_zero] at hsum
        exact hsum.le
      simp at hnil
    | c :: cs', d :: ds' =>
      obtain ⟨hcInt, hc1⟩ := hcs c (List.mem_cons_self c cs')
      obtain ⟨hdInt, hd1⟩ := hds d (List.mem_cons_self d ds')
      have hcs' : ∀ b ∈ cs', IsIntQ b.balance ∧ 1 ≤ b.balance :=
        fun b hb => hcs b (List.mem_cons_of_mem c hb)
      have hds' : ∀ b ∈ ds', IsIntQ b.balance ∧ b.balance ≤ -1 :=
        fun b hb => hds b (List.mem_cons_of_mem d hb)
      have htInt : IsIntQ (min c.balance (-d.balance)) := hcInt.min hdInt.neg
      have ht1 : 1 ≤ min c.balance (-d.balance) := le_min hc1 (by linarith)
      have ht3 : min c.balance (-d.balance) > 1 / 100 := by
        have h100 : (1 : ℚ) / 100 < 1 := by norm_num
        linarith
      have htc : min c.balance (-d.balance) ≤ c.balance := min_le_left _ _
      have htd : min c.balance (-d.balance) ≤ -d.balance := min_le_right _ _
      -- nodup bookkeeping
      simp only [List.cons_append, List.map_cons] at hnd
      rcases List.nodup_cons.mp hnd with ⟨hcNot, hrest⟩
      rw [List.map_append, List.map_cons] at hrest hcNot
      rcases List.nodup_append.mp hrest with ⟨hcs'nd, hdnd, hdisj⟩
      rcases List.nodup_cons.mp hdnd with ⟨hdNotDs, hds'nd⟩
      have hdNotCs : d.userId ∉ cs'.map UserBalance.userId :=
        fun h => hdisj h (List.mem_cons_self _ _)
      have hcNotCs : c.userId ∉ cs'.map UserBalance.userId :=
        fun h => hcNot (List.mem_append_left _ h)
      have hcNeD : c.userId ≠ d.userId :=
        fun h => hcNot (List.mem_append_right _ (h ▸ List.mem_cons_self _ _))
      have hcNotDs : c.userId ∉ ds'.map UserBalance.userId :=
        fun h => hcNot (List.mem_append_right _ (List.mem_cons_of_mem _ h))
      have hndTail : ((cs' ++ ds').map UserBalance.userId).Nodup := by
        rw [List.map_append]
        refine List.Nodup.append hcs'nd hds'nd ?_
        intro a ha ha'
        exact hdisj ha (List.mem_cons_of_mem _ ha')
      -- sums
      simp only [List.map_cons, List.sum_cons] at hsum
      simp only [List.length_cons] at hlen
      rw [matchGo_cons_cons, if_pos ht3, round2_of_isIntQ htInt]
      by_cases hceq : c.balance - min c.balance (-d.balance) = 0
      · have h1 : |c.balance - min c.balance (-d.balance)| < 1 / 100 := by
          rw [hceq]; norm_num
        rw [if_pos h1]
        have hcb : c.balance = min c.balance (-d.balance) := by linarith
        by_cases hdeq : d.balance + min c.balance (-d.balance) = 0
        · -- both sides exhausted: recurse on both tails
          have h2 : |d.balance + min c.balance (-d.balance)| < 1 / 100 := by
            rw [hdeq]; norm_num
          rw [if_pos h2]
          have hdb : d.balance = -(min c.balance (-d.balance)) := by linarith
          obtain ⟨s, hs, hIH⟩ := ih cs' ds' (by omega) hcs' hds' (by linarith) hndTail
          rw [hs]
          refine ⟨_, rfl, fun u => ?_⟩
          rw [netDelta_cons, hIH u]
          simp only [settDelta, lookupBal_cons]
          split_ifs with hdu hcu hcu
          · exact absurd (hcu.trans hdu.symm) hcNeD
          · have hz1 : lookupBal cs' u = 0 :=
              lookupBal_eq_zero_of_not_mem (hdu ▸ hdNotCs)
            have hz2 : lookupBal ds' u = 0 :=
              lookupBal_eq_zero_of_not_mem (hdu ▸ hdNotDs)
            rw [hz1, hz2]
            linarith
          · have hz1 : lookupBal cs' u = 0 :=
              lookupBal_eq_zero_of_not_mem (hcu ▸ hcNotCs)
            have hz2 : lookupBal ds' u = 0 :=
              lookupBal_eq_zero_of_not_mem (hcu ▸ hcNotDs)
            rw [hz1, hz2]
            linarith
          · ring
        · -- only the creditor is exhausted
          have h2 : ¬(|d.balance + min c.balance (-d.balance)| < 1 / 100) :=
            fun h => hdeq ((hdInt.add htInt).eq_zero_of_abs_lt h)
          rw [if_neg h2]
          have hd'neg : d.balance + min c.balance (-d.balance) < 0 :=
            lt_of_le_of_ne (by linarith) hdeq
          have hd'le : d.balance + min c.balance (-d.balance) ≤ -1 :=
            (hdInt.add htInt).le_neg_one_of_neg hd'neg
          have hds'' : ∀ b ∈ ({ d with balance := d.balance + min c.balance (-d.balance) } :: ds'),
              IsIntQ b.balance ∧ b.balance ≤ -1 := by
            intro b hb
            rcases List.mem_cons.mp hb with hbd | hm
            · rw [hbd]; exact ⟨hdInt.add htInt, hd'le⟩
            · exact hds' b hm
          have hnd'' : ((cs' ++ { d with balance := d.balance + min c.balance (-d.balance) } :: ds').map
              UserBalance.userId).Nodup := by
            simp only [List.map_append, List.map_cons]
            exact hrest
          obtain ⟨s, hs, hIH⟩ := ih cs'
            ({ d with balance := d.balance + min c.balance (-d.balance) } :: ds')
            (by simp only [List.length_cons]; omega) hcs' hds''
            (by simp only [List.map_cons, List.sum_cons]; linarith) hnd''
          rw [hs]
          refine ⟨_, rfl, fun u => ?_⟩
          rw [netDelta_cons, hIH u]
          simp only [settDelta, lookupBal_cons]
          split_ifs with hdu hcu hcu
          · exact absurd (hcu.trans hdu.symm) hcNeD
          · have hz1 : lookupBal cs' u = 0 :=
              lookupBal_eq_zero_of_not_mem (hdu ▸ hdNotCs)
            rw [hz1]
            ring
          · have hz1 : lookupBal cs' u = 0 :=
              lookupBal_eq_zero_of_not_mem (hcu ▸ hcNotCs)
            have hz2 : lookupBal ds' u = 0 :=
              lookupBal_eq_zero_of_not_mem (hcu ▸ hcNotDs)
            rw [hz1, hz2]
            linarith
          · ring
      · -- the creditor is not exhausted, so the debtor must be
        have hdeq : d.balance + min c.balance (-d.balance) = 0 := by
          rcases matchGo_drop c d with h0 | h0
          · exact absurd h0 hceq
          · exact h0
        have h1 : ¬(|c.balance - min c.balance (-d.balance)| < 1 / 100) :=
          fun h => hceq ((hcInt.sub htInt).eq_zero_of_abs_lt h)
        have h2 : |d.balance + min c.balance (-d.balance)| < 1 / 100 := by
          rw [hdeq]; norm_num
        rw [if_neg h1, if_pos h2]
        have hdb : d.balance = -(min c.balance (-d.balance)) := by linarith
        have hc'pos : 0 < c.balance - min c.balance (-d.balance) :=
          lt_of_le_of_ne (by linarith) (fun h => hceq h.symm)
        have hc'ge : 1 ≤ c.balance - min c.balance (-d.balance) :=
          (hcInt.sub htInt).one_le_of_pos hc'pos
        have hcs'' : ∀ b ∈ ({ c with balance := c.balance - min c.balance (-d.balance) } :: cs'),
            IsIntQ b.balance ∧ 1 ≤ b.balance := by
          intro b hb
          rcases List.mem_cons.mp hb with hbc | hm
          · rw [hbc]; exact ⟨hcInt.sub htInt, hc'ge⟩
          · exact hcs' b hm
        have hnd'' : ((({ c with balance := c.balance - min c.balance (-d.balance) } :: cs')
            ++ ds').map UserBalance.userId).Nodup := by
          simp only [List.cons_append, List.map_cons, List.map_append]
          rw [List.nodup_cons]
          constructor
          · intro hmem
            rcases List.mem_append.mp hmem with hm | hm
            · exact hcNotCs hm
            · exact hcNotDs hm
          · rw [List.map_append] at hndTail
            exact hndTail
        obtain ⟨s, hs, hIH⟩ := ih
          ({ c with balance := c.balance - min c.balance (-d.balance) } :: cs') ds'
          (by simp only [List.length_cons]; omega) hcs'' hds'
          (by simp only [List.map_cons, List.sum_cons]; linarith) hnd''
        rw [hs]
        refine ⟨_, rfl, fun u => ?_⟩
        rw [netDelta_cons, hIH u]
        simp only [settDelta, lookupBal_cons]
        split_ifs with hdu hcu hcu
        · exact absurd (hcu.trans hdu.symm) hcNeD
        · have hz1 : lookupBal cs' u = 0 :=
            lookupBal_eq_zero_of_not_mem (hdu ▸ hdNotCs)
          have hz2 : lookupBal ds' u = 0 :=
            lookupBal_eq_zero_of_not_mem (hdu ▸ hdNotDs)
          rw [hz1, hz2]
          linarith
        · have hz2 : lookupBal ds' u = 0 :=
            lookupBal_eq_zero_of_not_mem (hcu ▸ hcNotDs)
          rw [hz2]
          ring
        · ring

/-! ## Glue: from `simplifyCurrencyDebts` to the loop invariants -/

/-- Conservation at the map level: every balance list emitted by
`calculateNetBalances` sums to exactly 0. -/
theorem calculateNetBalances_sum (debts : List Debt) (currency : String) :
    ((calculateNetBalances debts currency).map UserBalance.balance).sum = 0 := by
  unfold calculateNetBalances
  rw [List.map_map]
  have hmap : List.map (UserBalance.balance ∘ fun p => (⟨p.1, p.2, currency⟩ : UserBalance))
      (debts.foldl balanceStep []) = List.map Prod.snd (debts.foldl balanceStep []) := rfl
  rw [hmap]
  have := sumVals_foldl_balanceStep debts []
  simpa [sumVals] using this

/-- Splitting a balance list by two mutually exclusive predicates splits its
sum into creditor, debtor and excluded parts. -/
theorem sum_filter_partition (bs : List UserBalance) (p q : UserBalance → Bool)
    (hpq : ∀ b, ¬(p b = true ∧ q b = true)) :
    ((bs.filter p).map UserBalance.balance).sum
      + ((bs.filter q).map UserBalance.balance).sum
      + ((bs.filter (fun b => !p b && !q b)).map UserBalance.balance).sum
      = (bs.map UserBalance.balance).sum := by
  induction bs with
  | nil => simp
  | cons b bs ih =>
    rcases Bool.eq_false_or_eq_true (p b) with hp | hp <;>
      rcases Bool.eq_false_or_eq_true (q b) with hq | hq
    · exact absurd ⟨hp, hq⟩ (hpq b)
    · simp only [List.filter_cons, hp, hq]
      simp only [if_true, if_false, Bool.not_true, Bool.not_false, Bool.false_and,
        Bool.false_eq_true, List.map_cons, List.sum_cons]
      linarith
    · simp only [List.filter_cons, hp, hq]
      simp only [if_true, if_false, Bool.not_true, Bool.not_false, Bool.true_and,
        Bool.false_eq_true, List.map_cons, List.sum_cons]
      linarith
    · simp only [List.filter_cons, hp, hq]
      simp only [if_true, if_false, Bool.not_true, Bool.not_false, Bool.true_and,
        Bool.false_eq_true, List.map_cons, List.sum_cons]
      linarith

/-- Distinct members of a userId-nodup balance list with equal ids are equal. -/
theorem uid_inj {bs : List UserBalance} (hnd : (bs.map UserBalance.userId).Nodup)
    {b1 b2 : UserBalance} (h1 : b1 ∈ bs) (h2 : b2 ∈ bs) (h : b1.userId = b2.userId) :
    b1 = b2 :=
  List.inj_on_of_nodup_map hnd h1 h2 h

/-- The creditor and debtor sublists of a userId-nodup balance list have
jointly distinct user ids. -/
theorem nodup_filter_append (bs : List UserBalance) (p q : UserBalance → Bool)
    (hnd : (bs.map UserBalance.userId).Nodup)
    (hpq : ∀ b, ¬(p b = true ∧ q b = true)) :
    ((bs.filter p ++ bs.filter q).map UserBalance.userId).Nodup := by
  rw [List.map_append]
  refine List.Nodup.append ?_ ?_ ?_
  · exact hnd.sublist ((List.filter_sublist bs).map UserBalance.userId)
  · exact hnd.sublist ((List.filter_sublist bs).map UserBalance.userId)
  · intro a ha hb
    rcases List.mem_map.mp ha with ⟨b1, hb1, rfl⟩
    rcases List.mem_map.mp hb with ⟨b2, hb2, heq⟩
    have hb1' := List.mem_of_mem_filter hb1
    have hb2' := List.mem_of_mem_filter hb2
    have : b1 = b2 := uid_inj hnd hb1' hb2' heq.symm
    subst this
    exact hpq b1 ⟨List.of_mem_filter hb1, List.of_mem_filter hb2⟩

/-- An integer balance that is neither above the creditor epsilon nor below
the debtor epsilon is exactly 0. -/
theorem excluded_zero {b : ℚ} (hInt : IsIntQ b) (h1 : ¬(b > 1 / 100))
    (h2 : ¬(b < -(1 / 100))) : b = 0 := by
  obtain ⟨n, rfl⟩ := hInt
  push_neg at h1 h2
  by_contra hne
  have hn : n ≠ 0 := fun h0 => hne (by rw [h0]; norm_num)
  rcases lt_or_gt_of_ne hn with hlt | hgt
  · have : n ≤ -1 := by omega
    have : (n : ℚ) ≤ -1 := by exact_mod_cast this
    linarith
  · have : 1 ≤ n := by omega
    have : (1 : ℚ) ≤ (n : ℚ) := by exact_mod_cast this
    linarith

/-- Full discharge for integer-amount ledgers: applying the settlements of
`simplifyCurrencyDebts` in the discharge direction zeroes every net balance. -/
theorem simplifyCurrencyDebts_discharge {debts : List Debt}
    (hdebts : ∀ d ∈ debts, IsIntQ d.amount) (currency : String) :
    ∀ b ∈ applyDischarge (calculateNetBalances debts currency)
        (simplifyCurrencyDebts debts currency), b.balance = 0 := by
  have hbsInt : ∀ b ∈ calculateNetBalances debts currency, IsIntQ b.balance :=
    calculateNetBalances_isIntQ hdebts currency
  have hbsnd := calculateNetBalances_nodup debts currency
  have hpq : ∀ b : UserBalance,
      ¬((decide (b.balance > 1 / 100)) = true ∧ (decide (b.balance < -(1 / 100))) = true) := by
    intro b ⟨h1, h2⟩
    have h1' := of_decide_eq_true h1
    have h2' := of_decide_eq_true h2
    linarith
  -- invariants of the filtered lists
  have hcs : ∀ b ∈ (calculateNetBalances debts currency).filter
      (fun b => b.balance > 1 / 100), IsIntQ b.balance ∧ 1 ≤ b.balance := by
    intro b hb
    have hmem := List.mem_of_mem_filter hb
    have hgt0 := List.of_mem_filter hb
    have hgt : b.balance > 1 / 100 := of_decide_eq_true hgt0
    exact ⟨hbsInt b hmem, (hbsInt b hmem).one_le_of_eps_lt hgt⟩
  have hds : ∀ b ∈ (calculateNetBalances debts currency).filter
      (fun b => b.balance < -(1 / 100)), IsIntQ b.balance ∧ b.balance ≤ -1 := by
    intro b hb
    have hmem := List.mem_of_mem_filter hb
    have hlt0 := List.of_mem_filter hb
    have hlt : b.balance < -(1 / 100) := of_decide_eq_true hlt0
    exact ⟨hbsInt b hmem, (hbsInt b hmem).le_neg_one_of_lt_neg_eps hlt⟩
  have hnd := nodup_filter_append (calculateNetBalances debts currency)
    (fun b => decide (b.balance > 1 / 100)) (fun b => decide (b.balance < -(1 / 100)))
    hbsnd hpq
  -- sum of the two filtered parts is 0
  have hexcl : ∀ b ∈ (calculateNetBalances debts currency).filter
      (fun b => !(decide (b.balance > 1 / 100)) && !(decide (b.balance < -(1 / 100)))),
      b.balance = 0 := by
    intro b hb
    have hmem := List.mem_of_mem_filter hb
    have hcond := List.of_mem_filter hb
    rw [Bool.and_eq_true] at hcond
    rcases hcond with ⟨hc1, hc2⟩
    have h1 : ¬(b.balance > 1 / 100) := by
      intro h
      rw [Bool.not_eq_true'] at hc1
      exact absurd (decide_eq_true h) (by rw [hc1]; simp)
    have h2 : ¬(b.balance < -(1 / 100)) := by
      intro h
      rw [Bool.not_eq_true'] at hc2
      exact absurd (decide_eq_true h) (by rw [hc2]; simp)
    exact excluded_zero (hbsInt b hmem) h1 h2
  have hsum : (((calculateNetBalances debts currency).filter
        (fun b => b.balance > 1 / 100)).map UserBalance.balance).sum
      + (((calculateNetBalances debts currency).filter
        (fun b => b.balance < -(1 / 100))).map UserBalance.balance).sum = 0 := by
    have hpart := sum_filter_partition (calculateNetBalances debts currency)
      (fun b => decide (b.balance > 1 / 100)) (fun b => decide (b.balance < -(1 / 100))) hpq
    have hzero : (((calculateNetBalances debts currency).filter
        (fun b => !(decide (b.balance > 1 / 100)) && !(decide (b.balance < -(1 / 100))))).map
        UserBalance.balance).sum = 0 := by
      apply List.sum_eq_zero
      intro x hx
      rcases List.mem_map.mp hx with ⟨b, hb, rfl⟩
      exact hexcl b hb
    rw [hzero, calculateNetBalances_sum] at hpart
    linarith
  obtain ⟨s, hs, hIH⟩ := matchGo_discharge currency
    (((calculateNetBalances debts currency).filter (fun b => b.balance > 1 / 100)).length
      + ((calculateNetBalances debts currency).filter (fun b => b.balance < -(1 / 100))).length)
    ((calculateNetBalances debts currency).filter (fun b => b.balance > 1 / 100))
    ((calculateNetBalances debts currency).filter (fun b => b.balance < -(1 / 100)))
    le_rfl hcs hds hsum hnd
  have hsimp : simplifyCurrencyDebts debts currency = s := by
    unfold simplifyCurrencyDebts
    simp only [hs, Option.getD_some]
  rw [hsimp, applyDischarge_eq]
  intro b hb
  rcases List.mem_map.mp hb with ⟨b0, hb0, rfl⟩
  -- nodup of the separate filtered lists
  rw [List.map_append] at hnd
  rcases List.nodup_append.mp hnd with ⟨hcnd, hdnd, hdisj⟩
  by_cases hb0p : b0.balance > 1 / 100
  · have hb0c : b0 ∈ (calculateNetBalances debts currency).filter
        (fun b => b.balance > 1 / 100) :=
      List.mem_filter.mpr ⟨hb0, by simp only [decide_eq_true_eq]; exact hb0p⟩
    have hlc : lookupBal ((calculateNetBalances debts currency).filter
        (fun b => b.balance > 1 / 100)) b0.userId = b0.balance := lookupBal_of_mem hcnd hb0c
    have hld : lookupBal ((calculateNetBalances debts currency).filter
        (fun b => b.balance < -(1 / 100))) b0.userId = 0 := by
      apply lookupBal_eq_zero_of_not_mem
      intro hmem
      rcases List.mem_map.mp hmem with ⟨b2, hb2, heq⟩
      have hb2' := List.mem_of_mem_filter hb2
      have hbb : b2 = b0 := uid_inj hbsnd hb2' hb0 heq
      subst hbb
      have h0 := List.of_mem_filter hb2
      have h1 := of_decide_eq_true h0
      linarith
    show b0.balance + netDelta b0.userId s = 0
    rw [hIH b0.userId, hlc, hld]
    ring
  · by_cases hb0q : b0.balance < -(1 / 100)
    · have hb0d : b0 ∈ (calculateNetBalances debts currency).filter
          (fun b => b.balance < -(1 / 100)) :=
        List.mem_filter.mpr ⟨hb0, by simp only [decide_eq_true_eq]; exact hb0q⟩
      have hld : lookupBal ((calculateNetBalances debts currency).filter
          (fun b => b.balance < -(1 / 100))) b0.userId = b0.balance := lookupBal_of_mem hdnd hb0d
      have hlc : lookupBal ((calculateNetBalances debts currency).filter
          (fun b => b.balance > 1 / 100)) b0.userId = 0 := by
        apply lookupBal_eq_zero_of_not_mem
        intro hmem
        rcases List.mem_map.mp hmem with ⟨b2, hb2, heq⟩
        have hb2' := List.mem_of_mem_filter hb2
        have hbb : b2 = b0 := uid_inj hbsnd hb2' hb0 heq
        subst hbb
        have h0 := List.of_mem_filter hb2
        have h1 := of_decide_eq_true h0
        linarith
      show b0.balance + netDelta b0.userId s = 0
      rw [hIH b0.userId, hlc, hld]
      ring
    · have hb00 : b0.balance = 0 := excluded_zero (hbsInt b0 hb0) hb0p hb0q
      have hlc : lookupBal ((calculateNetBalances debts currency).filter
          (fun b => b.balance > 1 / 100)) b0.userId = 0 := by
        apply lookupBal_eq_zero_of_not_mem
        intro hmem
        rcases List.mem_map.mp hmem with ⟨b2, hb2, heq⟩
        have hb2' := List.mem_of_mem_filter hb2
        have hbb : b2 = b0 := uid_inj hbsnd hb2' hb0 heq
        subst hbb
        have h0 := List.of_mem_filter hb2
        exact hb0p (of_decide_eq_true h0)
      have hld : lookupBal ((calculateNetBalances debts currency).filter
          (fun b => b.balance < -(1 / 100))) b0.userId = 0 := by
        apply lookupBal_eq_zero_of_not_mem
        intro hmem
        rcases List.mem_map.mp hmem with ⟨b2, hb2, heq⟩
        have hb2' := List.mem_of_mem_filter hb2
        have hbb : b2 = b0 := uid_inj hbsnd hb2' hb0 heq
        subst hbb
        have h0 := List.of_mem_filter hb2
        exact hb0q (of_decide_eq_true h0)
      show b0.balance + netDelta b0.userId s = 0
      rw [hIH b0.userId, hlc, hld, hb00]
      ring

/-! ## `optimizeSettlementOrder` lemmas -/

theorem strLtB_irrefl : ∀ l : List Char, strLtB l l = false := by
  intro l
  induction l with
  | nil => rfl
  | cons a l ih => simp [strLtB, lt_irrefl, ih]

theorem strLtB_trans : ∀ l1 l2 l3 : List Char,
    strLtB l1 l2 = true → strLtB l2 l3 = true → strLtB l1 l3 = true := by
  intro l1
  induction l1 with
  | nil =>
    intro l2 l3 h12 h23
    cases l2 with
    | nil => cases h12
    | cons b l2 =>
      cases l3 with
      | nil => cases h23
      | cons c l3 => rfl
  | cons a l1 ih =>
    intro l2 l3 h12 h23
    cases l2 with
    | nil => cases h12
    | cons b l2 =>
      cases l3 with
      | nil => cases h23
      | cons c l3 =>
        by_cases hab : a < b
        · by_cases hbc : b < c
          · simp [strLtB, lt_trans hab hbc]
          · by_cases hcb : c < b
            · exfalso; simp [strLtB, hbc, hcb] at h23
            · have hbceq : b = c := le_antisymm (not_lt.mp hcb) (not_lt.mp hbc)
              subst hbceq
              simp [strLtB, hab]
        · by_cases hba : b < a
          · exfalso; simp [strLtB, hab, hba] at h12
          · have habeq : a = b := le_antisymm (not_lt.mp hba) (not_lt.mp hab)
            subst habeq
            simp only [strLtB, lt_irrefl, if_false] at h12
            by_cases hac : a < c
            · simp [strLtB, hac]
            · by_cases hca : c < a
              · exfalso; simp [strLtB, hac, hca] at h23
              · have haceq : a = c := le_antisymm (not_lt.mp hca) (not_lt.mp hac)
                subst haceq
                simp only [strLtB, lt_irrefl, if_false] at h23 ⊢
                exact ih l2 l3 h12 h23

theorem strLtB_trichotomy : ∀ l1 l2 : List Char,
    l1 = l2 ∨ strLtB l1 l2 = true ∨ strLtB l2 l1 = true := by
  intro l1
  induction l1 with
  | nil =>
    intro l2
    cases l2 with
    | nil => exact Or.inl rfl
    | cons b l2 => exact Or.inr (Or.inl rfl)
  | cons a l1 ih =>
    intro l2
    cases l2 with
    | nil => exact Or.inr (Or.inr rfl)
    | cons b l2 =>
      rcases lt_trichotomy a b with h | h | h
      · exact Or.inr (Or.inl (by simp [strLtB, h]))
      · subst h
        rcases ih l2 with h2 | h2 | h2
        · exact Or.inl (by rw [h2])
        · exact Or.inr (Or.inl (by simp [strLtB, lt_irrefl, h2]))
        · exact Or.inr (Or.inr (by simp [strLtB, lt_irrefl, h2]))
      · exact Or.inr (Or.inr (by simp [strLtB, h]))

/-- The lexicographic strict order on strings realised by `localeCompare`. -/
def strLt (a b : String) : Prop := strLtB a.data b.data = true

theorem strLt_irrefl (a : String) : ¬ strLt a a := by
  rw [strLt, strLtB_irrefl]
  simp

theorem strLt_trans {a b c : String} (h1 : strLt a b) (h2 : strLt b c) : strLt a c :=
  strLtB_trans _ _ _ h1 h2

theorem strLt_trichotomy (a b : String) : a = b ∨ strLt a b ∨ strLt b a := by
  rcases strLtB_trichotomy a.data b.data with h | h | h
  · left
    cases a; cases b
    exact congrArg String.mk h
  · exact Or.inr (Or.inl h)
  · exact Or.inr (Or.inr h)

/-- The sort key ordering of the comparator: currency code ascending
(lexicographic), amount descending within a currency. -/
def settleLe (a b : Settlement) : Prop :=
  strLt a.currency b.currency ∨ (a.currency = b.currency ∧ b.amount ≤ a.amount)

/-- Strict version of `settleLe`. -/
def settleLt (a b : Settlement) : Prop :=
  strLt a.currency b.currency ∨ (a.currency = b.currency ∧ b.amount < a.amount)

/-- The comparator reports "a before b" exactly when `settleLt a b`. -/
theorem settleCmp_neg_iff (a b : Settlement) : settleCmp a b < 0 ↔ settleLt a b := by
  by_cases hc : a.currency = b.currency
  · rw [settleCmp, if_pos hc]
    constructor
    · intro h
      exact Or.inr ⟨hc, by linarith⟩
    · intro h
      rcases h with h | ⟨_, h⟩
      · exfalso
        rw [strLt, hc, strLtB_irrefl] at h
        cases h
      · linarith
  · rw [settleCmp, if_neg hc]
    have hdata : a.currency.data ≠ b.currency.data := by
      intro h
      apply hc
      have hmk : ∀ x y : String, x.data = y.data → x = y := by
        intro x y hxy
        cases x; cases y
        exact congrArg String.mk hxy
      exact hmk _ _ h
    by_cases hA : strLtB a.currency.data b.currency.data = true
    · have hlc : localeCompare a.currency b.currency = -1 := by
        rw [localeCompare, if_pos hA]
      rw [hlc, if_neg (by norm_num : ¬((-1 : ℤ) = 0))]
      constructor
      · intro _
        exact Or.inl hA
      · intro _
        norm_num
    · have hB : strLtB b.currency.data a.currency.data = true := by
        rcases strLtB_trichotomy a.currency.data b.currency.data with h | h | h
        · exact absurd h hdata
        · exact absurd h hA
        · exact h
      have hlc : localeCompare a.currency b.currency = 1 := by
        rw [localeCompare, if_neg hA, if_pos hB]
      rw [hlc, if_neg (by norm_num : ¬((1 : ℤ) = 0))]
      constructor
      · intro h
        norm_num at h
      · intro h
        rcases h with h | ⟨hc', _⟩
        · exact absurd h hA
        · exact absurd hc' hc

theorem settleLt.le {a b : Settlement} (h : settleLt a b) : settleLe a b := by
  rcases h with h | ⟨h1, h2⟩
  · exact Or.inl h
  · exact Or.inr ⟨h1, le_of_lt h2⟩

theorem settleLe_of_not_lt {a b : Settlement} (h : ¬ settleCmp a b < 0) : settleLe b a := by
  rw [settleCmp_neg_iff] at h
  by_cases hc : a.currency = b.currency
  · refine Or.inr ⟨hc.symm, ?_⟩
    by_contra hlt
    exact h (Or.inr ⟨hc, lt_of_not_le hlt⟩)
  · left
    rcases strLt_trichotomy a.currency b.currency with he | hl | hl
    · exact absurd he hc
    · exact absurd (Or.inl hl) h
    · exact hl

theorem settleLe_trans {a b c : Settlement} (h1 : settleLe a b) (h2 : settleLe b c) :
    settleLe a c := by
  rcases h1 with h1 | ⟨he1, ha1⟩
  · rcases h2 with h2 | ⟨he2, ha2⟩
    · exact Or.inl (strLt_trans h1 h2)
    · exact Or.inl (he2 ▸ h1)
  · rcases h2 with h2 | ⟨he2, ha2⟩
    · exact Or.inl (he1 ▸ h2)
    · exact Or.inr ⟨he1.trans he2, le_trans ha2 ha1⟩

theorem settleLt_of_lt_of_le {a b c : Settlement} (h1 : settleLt a b) (h2 : settleLe b c) :
    settleLt a c := by
  rcases h1 with h1 | ⟨he1, ha1⟩
  · rcases h2 with h2 | ⟨he2, ha2⟩
    · exact Or.inl (strLt_trans h1 h2)
    · exact Or.inl (he2 ▸ h1)
  · rcases h2 with h2 | ⟨he2, ha2⟩
    · exact Or.inl (he1 ▸ h2)
    · exact Or.inr ⟨he1.trans he2, lt_of_le_of_lt ha2 ha1⟩

/-- A strictly smaller settlement cannot share the (currency, amount) key. -/
theorem settleLt_ne_key {a b : Settlement} (h : settleLt a b)
    (hkey : b.currency = a.currency ∧ b.amount = a.amount) : False := by
  rcases h with h | ⟨he, ha⟩
  · rw [hkey.1] at h
    exact strLt_irrefl _ h
  · rw [hkey.2] at ha
    exact lt_irrefl _ ha

theorem mem_insertSettle {x z : Settlement} : ∀ {l : List Settlement},
    z ∈ insertSettle x l → z = x ∨ z ∈ l := by
  intro l
  induction l with
  | nil =>
    intro h
    simp [insertSettle] at h
    exact Or.inl h
  | cons y l ih =>
    intro h
    rw [insertSettle] at h
    by_cases hxy : settleCmp x y < 0
    · rw [if_pos hxy] at h
      rcases List.mem_cons.mp h with h | h
      · exact Or.inl h
      · exact Or.inr h
    · rw [if_neg hxy] at h
      rcases List.mem_cons.mp h with h | h
      · exact Or.inr (h ▸ List.mem_cons_self y l)
      · rcases ih h with h' | h'
        · exact Or.inl h'
        · exact Or.inr (List.mem_cons_of_mem y h')

theorem pairwise_insertSettle (x : Settlement) : ∀ {l : List Settlement},
    l.Pairwise settleLe → (insertSettle x l).Pairwise settleLe := by
  intro l
  induction l with
  | nil =>
    intro _
    simp [insertSettle]
  | cons y l ih =>
    intro h
    rcases List.pairwise_cons.mp h with ⟨hy, hl⟩
    rw [insertSettle]
    by_cases hxy : settleCmp x y < 0
    · rw [if_pos hxy]
      have hlt : settleLt x y := (settleCmp_neg_iff x y).mp hxy
      refine List.pairwise_cons.mpr ⟨?_, h⟩
      intro z hz
      rcases List.mem_cons.mp hz with rfl | hz'
      · exact hlt.le
      · exact (settleLt_of_lt_of_le hlt (hy z hz')).le
    · rw [if_neg hxy]
      refine List.pairwise_cons.mpr ⟨?_, ih hl⟩
      intro z hz
      rcases mem_insertSettle hz with rfl | hz'
      · exact settleLe_of_not_lt hxy
      · exact hy z hz'

theorem perm_insertSettle (x : Settlement) : ∀ l : List Settlement,
    (insertSettle x l).Perm (x :: l) := by
  intro l
  induction l with
  | nil => simp [insertSettle]
  | cons y l ih =>
    rw [insertSettle]
    by_cases hxy : settleCmp x y < 0
    · rw [if_pos hxy]
    · rw [if_neg hxy]
      exact (ih.cons y).trans (List.Perm.swap x y l)

/-- Inserting into a sorted list appends the element to the end of its own
(currency, amount) key class: the stable position. -/
theorem filter_insertSettle (x : Settlement) (c : String) (q : ℚ) :
    ∀ l : List Settlement, l.Pairwise settleLe →
      (insertSettle x l).filter (fun s => s.currency = c ∧ s.amount = q) =
        l.filter (fun s => s.currency = c ∧ s.amount = q)
          ++ [x].filter (fun s => s.currency = c ∧ s.amount = q) := by
  intro l
  induction l with
  | nil => simp [insertSettle]
  | cons y l ih =>
    intro h
    rcases List.pairwise_cons.mp h with ⟨hy, hl⟩
    rw [insertSettle]
    by_cases hxy : settleCmp x y < 0
    · rw [if_pos hxy]
      have hlt : settleLt x y := (settleCmp_neg_iff x y).mp hxy
      by_cases hpx : x.currency = c ∧ x.amount = q
      · have hclass : ∀ z ∈ y :: l, ¬(z.currency = c ∧ z.amount = q) := by
          intro z hz hpz
          have hltz : settleLt x z := by
            rcases List.mem_cons.mp hz with rfl | hz'
            · exact hlt
            · exact settleLt_of_lt_of_le hlt (hy z hz')
          exact settleLt_ne_key hltz
            ⟨hpz.1.trans hpx.1.symm, hpz.2.trans hpx.2.symm⟩
        have hnil : (y :: l).filter (fun s => s.currency = c ∧ s.amount = q) = [] := by
          rw [List.filter_eq_nil_iff]
          intro z hz
          simp only [decide_eq_true_eq]
          exact hclass z hz
        have hbx : ((fun s => decide (s.currency = c ∧ s.amount = q)) x = true) := by
          simp only [decide_eq_true_eq]
          exact hpx
        have hfx : [x].filter (fun s => s.currency = c ∧ s.amount = q) = [x] := by
          rw [List.filter_cons, if_pos hbx, List.filter_nil]
        rw [hfx, List.filter_cons, if_pos hbx, hnil, List.nil_append]
      · have hbx : ¬((fun s => decide (s.currency = c ∧ s.amount = q)) x = true) := by
          simp only [decide_eq_true_eq]
          exact hpx
        have hfx : [x].filter (fun s => s.currency = c ∧ s.amount = q) = [] := by
          rw [List.filter_cons, if_neg hbx, List.filter_nil]
        rw [hfx, List.append_nil, List.filter_cons, if_neg hbx]
    · rw [if_neg hxy]
      by_cases hpy : y.currency = c ∧ y.amount = q
      · have hby : ((fun s => decide (s.currency = c ∧ s.amount = q)) y = true) := by
          simp only [decide_eq_true_eq]
          exact hpy
        rw [List.filter_cons, if_pos hby, List.filter_cons, if_pos hby, ih hl,
          List.cons_append]
      · have hby : ¬((fun s => decide (s.currency = c ∧ s.amount = q)) y = true) := by
          simp only [decide_eq_true_eq]
          exact hpy
        rw [List.filter_cons, if_neg hby, List.filter_cons, if_neg hby, ih hl]

/-- Stability and sortedness invariant of the fold. -/
theorem optimize_fold_invariant (ss : List Settlement) :
    ∀ acc : List Settlement, acc.Pairwise settleLe →
      (ss.foldl (fun acc x => insertSettle x acc) acc).Pairwise settleLe ∧
      ((ss.foldl (fun acc x => insertSettle x acc) acc).Perm (acc ++ ss)) ∧
      (∀ (c : String) (q : ℚ),
        (ss.foldl (fun acc x => insertSettle x acc) acc).filter
            (fun s => s.currency = c ∧ s.amount = q) =
          acc.filter (fun s => s.currency = c ∧ s.amount = q)
            ++ ss.filter (fun s => s.currency = c ∧ s.amount = q)) := by
  induction ss with
  | nil =>
    intro acc hacc
    exact ⟨hacc, by simp, fun c q => by simp⟩
  | cons x ss ih =>
    intro acc hacc
    obtain ⟨hsort, hperm, hfilter⟩ := ih (insertSettle x acc) (pairwise_insertSettle x hacc)
    refine ⟨hsort, ?_, ?_⟩
    · exact hperm.trans
        ((List.Perm.append_right ss (perm_insertSettle x acc)).trans List.perm_middle.symm)
    · intro c q
      show List.filter (fun s => decide (s.currency = c ∧ s.amount = q))
          (List.foldl (fun acc x => insertSettle x acc) (insertSettle x acc) ss) =
        List.filter (fun s => decide (s.currency = c ∧ s.amount = q)) acc ++
          List.filter (fun s => decide (s.currency = c ∧ s.amount = q)) (x :: ss)
      rw [hfilter c q, filter_insertSettle x c q acc hacc]
      by_cases hpx : x.currency = c ∧ x.amount = q
      · have hbx : ((fun s => decide (s.currency = c ∧ s.amount = q)) x = true) := by
          simp only [decide_eq_true_eq]
          exact hpx
        have hfx : [x].filter (fun s => s.currency = c ∧ s.amount = q) = [x] := by
          rw [List.filter_cons, if_pos hbx, List.filter_nil]
        rw [hfx, List.filter_cons, if_pos hbx, List.append_assoc]
        rfl
      · have hbx : ¬((fun s => decide (s.currency = c ∧ s.amount = q)) x = true) := by
          simp only [decide_eq_true_eq]
          exact hpx
        have hfx : [x].filter (fun s => s.currency = c ∧ s.amount = q) = [] := by
          rw [List.filter_cons, if_neg hbx, List.filter_nil]
        rw [hfx, List.append_nil, List.filter_cons, if_neg hbx]

/-! ## `calculateUserExposure` lemmas -/

theorem sum_map_sub (l : List Debt) (f g : Debt → ℚ) :
    (l.map (fun d => f d - g d)).sum = (l.map f).sum - (l.map g).sum := by
  induction l with
  | nil => simp
  | cons d l ih =>
    simp only [List.map_cons, List.sum_cons, ih]
    ring

theorem filter_map_sum_eq_guard (debts : List Debt) (P : Debt → Prop) [DecidablePred P] :
    ((debts.filter (fun d => decide (P d))).map Debt.amount).sum =
      (debts.map (fun d => if P d then d.amount else 0)).sum := by
  induction debts with
  | nil => simp
  | cons d debts ih =>
    by_cases h : P d <;> simp [List.filter_cons, h, ih]

theorem exposureStep_owed (u : String) (e : Exposure) (d : Debt) (c : String) :
    mapGet (exposureStep u e d).totalOwed c =
      mapGet e.totalOwed c + (if d.«to» = u ∧ d.currency = c then d.amount else 0) := by
  unfold exposureStep
  by_cases hto : d.«to» = u
  · rw [if_pos hto]
    dsimp only
    by_cases hc : d.currency = c
    · subst hc
      rw [mapGet_mapSet_self]
      simp [hto]
    · rw [mapGet_mapSet_other _ _ _ _ hc]
      simp [hto, hc]
  · rw [if_neg hto]
    by_cases hfrom : d.«from» = u
    · rw [if_pos hfrom]
      simp [hto]
    · rw [if_neg hfrom]
      simp [hto]

theorem exposureStep_owing (u : String) (e : Exposure) (d : Debt) (c : String) :
    mapGet (exposureStep u e d).totalOwing c =
      mapGet e.totalOwing c
        + (if d.«from» = u ∧ ¬(d.«to» = u) ∧ d.currency = c then d.amount else 0) := by
  unfold exposureStep
  by_cases hto : d.«to» = u
  · rw [if_pos hto]
    simp [hto]
  · rw [if_neg hto]
    by_cases hfrom : d.«from» = u
    · rw [if_pos hfrom]
      dsimp only
      by_cases hc : d.currency = c
      · subst hc
        rw [mapGet_mapSet_self]
        simp [hto, hfrom]
      · rw [mapGet_mapSet_other _ _ _ _ hc]
        simp [hto, hfrom, hc]
    · rw [if_neg hfrom]
      simp [hto, hfrom]

theorem exposure_foldl (u c : String) (debts : List Debt) :
    ∀ e : Exposure,
      mapGet (debts.foldl (exposureStep u) e).totalOwed c =
        mapGet e.totalOwed c
          + (debts.map (fun d => if d.«to» = u ∧ d.currency = c then d.amount else 0)).sum ∧
      mapGet (debts.foldl (exposureStep u) e).totalOwing c =
        mapGet e.totalOwing c
          + (debts.map (fun d =>
              if d.«from» = u ∧ ¬(d.«to» = u) ∧ d.currency = c then d.amount else 0)).sum := by
  induction debts with
  | nil => intro e; simp
  | cons d debts ih =>
    intro e
    rw [List.foldl_cons]
    obtain ⟨ih1, ih2⟩ := ih (exposureStep u e d)
    constructor
    · rw [ih1, exposureStep_owed]
      simp only [List.map_cons, List.sum_cons]
      ring
    · rw [ih2, exposureStep_owing]
      simp only [List.map_cons, List.sum_cons]
      ring

/-! ## `validateDebtMatrix` lemmas -/

theorem mapSet_forall {P : ℚ → Prop} {m : List (String × ℚ)} (h : ∀ p ∈ m, P p.2) {v : ℚ}
    (hv : P v) (k : String) : ∀ p ∈ mapSet m k v, P p.2 := by
  induction m with
  | nil =>
    intro p hp
    simp at hp
    simp [hp, hv]
  | cons q m ih =>
    intro p hp
    by_cases hq : q.1 = k
    · rw [mapSet_cons, if_pos hq] at hp
      rcases List.mem_cons.mp hp with rfl | hm
      · exact hv
      · exact h p (List.mem_cons_of_mem q hm)
    · rw [mapSet_cons, if_neg hq] at hp
      rcases List.mem_cons.mp hp with hpq | hm
      · rw [hpq]
        exact h q (List.mem_cons_self q m)
      · exact ih (fun r hr => h r (List.mem_cons_of_mem q hr)) p hm

theorem mapGet_zero {m : List (String × ℚ)} (h : ∀ p ∈ m, p.2 = 0) (k : String) :
    mapGet m k = 0 := by
  induction m with
  | nil => rfl
  | cons p m ih =>
    by_cases hp : p.1 = k
    · rw [mapGet_cons, if_pos hp]
      exact h p (List.mem_cons_self p m)
    · rw [mapGet_cons, if_neg hp]
      exact ih (fun q hq => h q (List.mem_cons_of_mem p hq))

/-- The first `forEach` of `validateDebtMatrix` re-stores each currency total
unmodified, so all running totals stay 0. -/
theorem validate_totals_zero (debts : List Debt) :
    ∀ acc : List String × List (String × ℚ), (∀ p ∈ acc.2, p.2 = 0) →
      ∀ p ∈ (debts.foldl
        (fun (acc : List String × List (String × ℚ)) d =>
          let issues :=
            if d.amount ≤ 0 then
              acc.1 ++ ["Invalid debt amount: " ++ toString d.amount ++ " between "
                ++ d.«from» ++ " and " ++ d.«to»]
            else acc.1
          (issues, mapSet acc.2 d.currency (mapGet acc.2 d.currency))) acc).2, p.2 = 0 := by
  induction debts with
  | nil => intro acc h; exact h
  | cons d debts ih =>
    intro acc h
    rw [List.foldl_cons]
    apply ih
    dsimp only
    exact @mapSet_forall (fun q => q = 0) acc.2 h (mapGet acc.2 d.currency)
      (mapGet_zero h d.currency) d.currency

/-- The first `forEach` appends exactly one issue per non-positive debt. -/
theorem validate_issues_len (debts : List Debt) :
    ∀ acc : List String × List (String × ℚ),
      (debts.foldl
        (fun (acc : List String × List (String × ℚ)) d =>
          let issues :=
            if d.amount ≤ 0 then
              acc.1 ++ ["Invalid debt amount: " ++ toString d.amount ++ " between "
                ++ d.«from» ++ " and " ++ d.«to»]
            else acc.1
          (issues, mapSet acc.2 d.currency (mapGet acc.2 d.currency))) acc).1.length =
        acc.1.length + (debts.filter (fun d => d.amount ≤ 0)).length := by
  induction debts with
  | nil => intro acc; simp
  | cons d debts ih =>
    intro acc
    rw [List.foldl_cons, ih]
    dsimp only
    by_cases h : d.amount ≤ 0
    · rw [if_pos h, List.filter_cons,
        if_pos (by simp only [decide_eq_true_eq]; exact h)]
      simp [List.length_append]
      omega
    · rw [if_neg h, List.filter_cons,
        if_neg (by simp only [decide_eq_true_eq]; exact h)]

/-- The second `forEach` never fires on all-zero totals. -/
theorem validate_phase2_id (totals : List (String × ℚ)) (hz : ∀ p ∈ totals, p.2 = 0) :
    ∀ iss : List String,
      totals.foldl
        (fun iss p =>
          if |p.2| > 1 / 100 then
            iss ++ ["Currency " ++ p.1 ++ " total should be zero, but is " ++ toString p.2]
          else iss) iss = iss := by
  induction totals with
  | nil => intro iss; rfl
  | cons p totals ih =>
    intro iss
    rw [List.foldl_cons]
    have hp : p.2 = 0 := hz p (List.mem_cons_self p totals)
    rw [if_neg (by rw [hp]; norm_num)]
    exact ih (fun q hq => hz q (List.mem_cons_of_mem p hq)) iss

/-- `validateDebtMatrix` reports exactly the non-positive-amount issues. -/
theorem validateDebtMatrix_issues_len (debts : List Debt) :
    (validateDebtMatrix debts).issues.length =
      (debts.filter (fun d => d.amount ≤ 0)).length := by
  unfold validateDebtMatrix
  dsimp only
  rw [validate_phase2_id _ (validate_totals_zero debts ([], []) (by simp)),
    validate_issues_len debts ([], [])]
  simp

theorem validateDebtMatrix_isValid (debts : List Debt) :
    (validateDebtMatrix debts).isValid = true ↔ ∀ d ∈ debts, 0 < d.amount := by
  have hlen := validateDebtMatrix_issues_len debts
  have hvalid : (validateDebtMatrix debts).isValid =
      (validateDebtMatrix debts).issues.isEmpty := by
    unfold validateDebtMatrix
    rfl
  rw [hvalid, List.isEmpty_iff, ← List.length_eq_zero, hlen]
  constructor
  · intro h d hd
    by_contra hle
    have : d ∈ debts.filter (fun d => d.amount ≤ 0) :=
      List.mem_filter.mpr ⟨hd, by simp only [decide_eq_true_eq]; exact not_lt.mp hle⟩
    rw [List.length_eq_zero] at h
    rw [h] at this
    cases this
  · intro h
    rw [List.length_eq_zero, List.filter_eq_nil_iff]
    intro d hd
    simp only [decide_eq_true_eq]
    exact not_le.mpr (h d hd)

/-! ## Claim theorems -/

/-- C1 — counterexample. The claim says a debt with non-positive amount
contributes nothing to any user's net balance.  In fact `calculateNetBalances`
processes every debt unconditionally: the single debt `{A→B, -5, USD}` gives
A a balance of +5 and B a balance of -5, whereas excluding it would leave both
at 0. -/
theorem claim_C1_counterexample :
    (-5 : ℚ) ≤ 0 ∧
    calculateNetBalances [⟨"A", "B", -5, "USD"⟩] "USD" =
      [⟨"A", 5, "USD"⟩, ⟨"B", -5, "USD"⟩] ∧
    lookupBal (calculateNetBalances [⟨"A", "B", -5, "USD"⟩] "USD") "A" = 5 ∧
    calculateNetBalances
      ([⟨"A", "B", -5, "USD"⟩].filter (fun d => d.amount > 0)) "USD" = [] := by
  refine ⟨by norm_num, ?_, ?_, ?_⟩ <;>
    norm_num +decide [calculateNetBalances, balanceStep, mapSet, mapGet, lookupBal,
      List.filter_cons]

/-- C1 — amended: debts with non-positive amount are NOT excluded from balance
aggregation; every debt, whatever the sign of its amount, adds its amount to
the `to` user's net balance and subtracts it from the `from` user's net
balance, so each user's net balance is the sum of amounts of debts toward them
minus the sum of amounts of debts from them, over all debts. -/
theorem claim_C1_amended (debts : List Debt) (currency u : String) :
    lookupBal (calculateNetBalances debts currency) u =
      ((debts.filter (fun d => d.«to» = u)).map Debt.amount).sum -
      ((debts.filter (fun d => d.«from» = u)).map Debt.amount).sum := by
  unfold calculateNetBalances
  rw [lookupBal_calculateNetBalances, mapGet_foldl_balanceStep, mapGet_nil, zero_add]
  rw [filter_map_sum_eq_guard debts (fun d => d.«to» = u),
    filter_map_sum_eq_guard debts (fun d => d.«from» = u), ← sum_map_sub]

/-- C2 — confirmed: on the docstring's example debt list the aggregation gives
balances A = -5, B = -5, C = +10 (in first-seen order), and `simplifyDebts`
returns exactly the two settlements `A→C 5` then `B→C 5`, not the single
`A→C 10` settlement claimed by the source docstring. -/
theorem claim_C2 :
    calculateNetBalances
      [⟨"A", "B", 10, "USD"⟩, ⟨"B", "C", 15, "USD"⟩, ⟨"C", "A", 5, "USD"⟩] "USD" =
      [⟨"A", -5, "USD"⟩, ⟨"B", -5, "USD"⟩, ⟨"C", 10, "USD"⟩] ∧
    simplifyDebts
      [⟨"A", "B", 10, "USD"⟩, ⟨"B", "C", 15, "USD"⟩, ⟨"C", "A", 5, "USD"⟩] =
      [⟨"A", "C", 5, "USD"⟩, ⟨"B", "C", 5, "USD"⟩] := by
  constructor
  · norm_num +decide [calculateNetBalances, balanceStep, mapSet, mapGet]
  · norm_num +decide [simplifyDebts, groupByCurrency, groupUpsert, simplifyCurrencyDebts,
      calculateNetBalances, balanceStep, mapSet, mapGet, matchGo, round2, abs_lt]

/-- C3 — confirmed: conservation.  For any debt list and any currency, the sum
of the net balances produced by the aggregation step is exactly 0 in exact
arithmetic, whatever the debts' validity. -/
theorem claim_C3 (debts : List Debt) (currency : String) :
    ((calculateNetBalances debts currency).map UserBalance.balance).sum = 0 :=
  calculateNetBalances_sum debts currency

/-- C4 — counterexample.  On the debt list `[{A→Z, 0.01, USD}, {B→Z, 0.01, USD}]`
the matcher emits no settlements (Z is a creditor with balance 0.02 but both
debtors sit exactly at the -0.01 epsilon, so the debtor list is empty), and
applying the (empty) settlement list — in the claim's direction or any other —
leaves Z's balance at 0.02, which is not within the 0.01 epsilon of 0. -/
theorem claim_C4_counterexample :
    simplifyCurrencyDebts [⟨"A", "Z", 1 / 100, "USD"⟩, ⟨"B", "Z", 1 / 100, "USD"⟩] "USD"
      = [] ∧
    applyClaimed
      (calculateNetBalances [⟨"A", "Z", 1 / 100, "USD"⟩, ⟨"B", "Z", 1 / 100, "USD"⟩] "USD")
      (simplifyCurrencyDebts [⟨"A", "Z", 1 / 100, "USD"⟩, ⟨"B", "Z", 1 / 100, "USD"⟩] "USD")
      = [⟨"A", -(1 / 100), "USD"⟩, ⟨"Z", 2 / 100, "USD"⟩, ⟨"B", -(1 / 100), "USD"⟩] ∧
    ¬(|lookupBal
        (applyClaimed
          (calculateNetBalances
            [⟨"A", "Z", 1 / 100, "USD"⟩, ⟨"B", "Z", 1 / 100, "USD"⟩] "USD")
          (simplifyCurrencyDebts
            [⟨"A", "Z", 1 / 100, "USD"⟩, ⟨"B", "Z", 1 / 100, "USD"⟩] "USD"))
        "Z"| ≤ 1 / 100) := by
  refine ⟨?_, ?_, ?_⟩ <;>
    norm_num +decide [simplifyCurrencyDebts, calculateNetBalances, balanceStep, mapSet,
      mapGet, matchGo, applyClaimed, lookupBal, abs_le]

/-- C4 — amended: full discharge holds in the direction the matcher itself
uses (each settlement's amount is added to the `from` user's balance and
subtracted from the `to` user's balance) whenever every debt amount is an
integer number of currency units; then every user's balance is driven exactly
to 0.  For sub-unit amounts near the epsilon the emitted (rounded,
epsilon-filtered) settlements can leave residuals exceeding the epsilon, as
the counterexample shows. -/
theorem claim_C4_amended (debts : List Debt) (currency : String)
    (hdebts : ∀ d ∈ debts, IsIntQ d.amount) :
    ∀ b ∈ applyDischarge (calculateNetBalances debts currency)
        (simplifyCurrencyDebts debts currency), b.balance = 0 :=
  simplifyCurrencyDebts_discharge hdebts currency

/-- C4 — witness: the amended theorem applied to the integer-amount docstring
ledger. -/
theorem claim_C4_witness :
    (∀ d ∈ [(⟨"A", "B", 10, "USD"⟩ : Debt), ⟨"B", "C", 15, "USD"⟩, ⟨"C", "A", 5, "USD"⟩],
      IsIntQ d.amount) ∧
    ∀ b ∈ applyDischarge
        (calculateNetBalances
          [⟨"A", "B", 10, "USD"⟩, ⟨"B", "C", 15, "USD"⟩, ⟨"C", "A", 5, "USD"⟩] "USD")
        (simplifyCurrencyDebts
          [⟨"A", "B", 10, "USD"⟩, ⟨"B", "C", 15, "USD"⟩, ⟨"C", "A", 5, "USD"⟩] "USD"),
      b.balance = 0 := by
  have hint : ∀ d ∈ [(⟨"A", "B", 10, "USD"⟩ : Debt), ⟨"B", "C", 15, "USD"⟩,
      ⟨"C", "A", 5, "USD"⟩], IsIntQ d.amount := by
    intro d hd
    simp only [List.mem_cons, List.not_mem_nil, or_false] at hd
    rcases hd with rfl | rfl | rfl
    · exact ⟨10, by norm_num⟩
    · exact ⟨15, by norm_num⟩
    · exact ⟨5, by norm_num⟩
  exact ⟨hint, claim_C4_amended _ "USD" hint⟩

/-- C5 — confirmed: with `c` creditors and `d` debtors after the epsilon
partition, the matcher emits at most `c + d - 1` settlements (the bound is
stated with truncated natural subtraction, which also covers the degenerate
`c = d = 0` case where no settlement is emitted). -/
theorem claim_C5 (debts : List Debt) (currency : String) :
    (simplifyCurrencyDebts debts currency).length ≤
      ((calculateNetBalances debts currency).filter (fun b => b.balance > 1 / 100)).length
        + ((calculateNetBalances debts currency).filter
            (fun b => b.balance < -(1 / 100))).length - 1 := by
  obtain ⟨s, hs, hlen⟩ := matchGo_total currency
    (((calculateNetBalances debts currency).filter (fun b => b.balance > 1 / 100)).length
      + ((calculateNetBalances debts currency).filter
          (fun b => b.balance < -(1 / 100))).length)
    ((calculateNetBalances debts currency).filter (fun b => b.balance > 1 / 100))
    ((calculateNetBalances debts currency).filter (fun b => b.balance < -(1 / 100)))
    le_rfl
  unfold simplifyCurrencyDebts
  simp only [hs, Option.getD_some]
  exact hlen

/-- C6 — counterexample.  The claim says the owed-by addition applies to every
debt with `from = userId`, including a self-debt with `from = to = userId`.
Because of the `else if`, the self-debt `{A→A, 5, USD}` is counted only in the
owed-to map; the owed-by map stays empty. -/
theorem claim_C6_counterexample :
    calculateUserExposure "A" [⟨"A", "A", 5, "USD"⟩] = ⟨[("USD", 5)], []⟩ ∧
    mapGet (calculateUserExposure "A" [⟨"A", "A", 5, "USD"⟩]).totalOwing "USD" = 0 ∧
    (5 : ℚ) ≠ 0 := by
  refine ⟨?_, ?_, by norm_num⟩ <;>
    norm_num +decide [calculateUserExposure, exposureStep, mapSet, mapGet]

/-- C6 — amended: for each debt with `to = userId` the amount is added to the
owed-to total of its currency; for each debt with `from = userId` AND
`to ≠ userId` the amount is added to the owed-by total; a self-debt counts
only toward owed-to because of the `else if`. -/
theorem claim_C6_amended (u : String) (debts : List Debt) (c : String) :
    mapGet (calculateUserExposure u debts).totalOwed c =
      ((debts.filter (fun d => d.«to» = u ∧ d.currency = c)).map Debt.amount).sum ∧
    mapGet (calculateUserExposure u debts).totalOwing c =
      ((debts.filter (fun d => d.«from» = u ∧ d.«to» ≠ u ∧ d.currency = c)).map
        Debt.amount).sum := by
  obtain ⟨h1, h2⟩ := exposure_foldl u c debts ⟨[], []⟩
  constructor
  · rw [calculateUserExposure, h1,
      filter_map_sum_eq_guard debts (fun d => d.«to» = u ∧ d.currency = c)]
    simp [mapGet]
  · rw [calculateUserExposure, h2,
      filter_map_sum_eq_guard debts (fun d => d.«from» = u ∧ d.«to» ≠ u ∧ d.currency = c)]
    simp [mapGet, Ne]

/-- C7 — confirmed: `optimizeSettlementOrder` returns a permutation of its
input that is sorted by currency code ascending (lexicographic) and, within a
currency, amount descending; settlements with equal (currency, amount) keys
keep their relative input order (stability, expressed by filter preservation);
and on the spec's example the EUR entries precede USD with 20 EUR before
5 EUR. -/
theorem claim_C7 (ss : List Settlement) :
    (optimizeSettlementOrder ss).Pairwise settleLe ∧
    (optimizeSettlementOrder ss).Perm ss ∧
    (∀ (c : String) (q : ℚ),
      (optimizeSettlementOrder ss).filter (fun s => s.currency = c ∧ s.amount = q) =
        ss.filter (fun s => s.currency = c ∧ s.amount = q)) ∧
    optimizeSettlementOrder
        [⟨"X", "Y", 5, "EUR"⟩, ⟨"X", "Y", 20, "USD"⟩, ⟨"A", "B", 20, "EUR"⟩] =
      [⟨"A", "B", 20, "EUR"⟩, ⟨"X", "Y", 5, "EUR"⟩, ⟨"X", "Y", 20, "USD"⟩] := by
  obtain ⟨hsort, hperm, hfilter⟩ :=
    optimize_fold_invariant ss [] (List.Pairwise.nil)
  refine ⟨hsort, ?_, ?_, ?_⟩
  · simpa using hperm
  · intro c q
    simpa using hfilter c q
  · norm_num +decide [optimizeSettlementOrder, insertSettle, settleCmp, localeCompare,
      strLtB]

/-- C8 — confirmed: every settlement emitted by the matcher (hence by
`simplifyDebts`) has positive amount, even after rounding, because a
settlement is only pushed when the exact transfer exceeds the 0.01 epsilon and
half-up rounding of a value above 0.01 stays at or above 0.01. -/
theorem claim_C8 (debts : List Debt) : ∀ x ∈ simplifyDebts debts, 0 < x.amount := by
  intro x hx
  unfold simplifyDebts at hx
  by_cases hempty : debts.isEmpty
  · rw [if_pos hempty] at hx
    cases hx
  · rw [if_neg hempty] at hx
    rcases List.mem_flatMap.mp hx with ⟨p, _, hxp⟩
    obtain ⟨s, hs, _⟩ := matchGo_total p.1
      (((calculateNetBalances p.2 p.1).filter (fun b => b.balance > 1 / 100)).length
        + ((calculateNetBalances p.2 p.1).filter
            (fun b => b.balance < -(1 / 100))).length)
      ((calculateNetBalances p.2 p.1).filter (fun b => b.balance > 1 / 100))
      ((calculateNetBalances p.2 p.1).filter (fun b => b.balance < -(1 / 100)))
      le_rfl
    have hsimp : simplifyCurrencyDebts p.2 p.1 = s := by
      unfold simplifyCurrencyDebts
      simp only [hs, Option.getD_some]
    rw [hsimp] at hxp
    exact matchGo_amount_pos p.1 _ _ _ s hs x hxp

/-- C8 — witness: the theorem applied to a one-debt ledger whose single
emitted settlement has amount 5. -/
theorem claim_C8_witness :
    (⟨"A", "B", 5, "USD"⟩ : Settlement) ∈ simplifyDebts [⟨"A", "B", 5, "USD"⟩] ∧
    0 < (Settlement.amount ⟨"A", "B", 5, "USD"⟩) := by
  have heq : simplifyDebts [⟨"A", "B", 5, "USD"⟩] = [⟨"A", "B", 5, "USD"⟩] := by
    norm_num +decide [simplifyDebts, groupByCurrency, groupUpsert, simplifyCurrencyDebts,
      calculateNetBalances, balanceStep, mapSet, mapGet, matchGo, round2, abs_lt]
  have hmem : (⟨"A", "B", 5, "USD"⟩ : Settlement) ∈ simplifyDebts [⟨"A", "B", 5, "USD"⟩] := by
    rw [heq]
    exact List.mem_cons_self _ _
  exact ⟨hmem, claim_C8 [⟨"A", "B", 5, "USD"⟩] _ hmem⟩

/-- C9 — confirmed: `validateDebtMatrix` never appends a currency-total issue
(the running totals are re-stored unchanged, hence stay 0), so its issue list
is exactly one entry per non-positive-amount debt and `isValid` holds iff
every debt amount is positive. -/
theorem claim_C9 (debts : List Debt) :
    (validateDebtMatrix debts).issues.length =
      (debts.filter (fun d => d.amount ≤ 0)).length ∧
    ((validateDebtMatrix debts).isValid = true ↔ ∀ d ∈ debts, 0 < d.amount) :=
  ⟨validateDebtMatrix_issues_len debts, validateDebtMatrix_isValid debts⟩

/-- C9 — witness: the theorem applied to a one-debt ledger with positive
amount validates. -/
theorem claim_C9_witness : (validateDebtMatrix [⟨"A", "B", 5, "USD"⟩]).isValid = true :=
  (claim_C9 [⟨"A", "B", 5, "USD"⟩]).2.mpr (by
    intro d hd
    simp only [List.mem_cons, List.not_mem_nil, or_false] at hd
    rw [hd]
    norm_num)

/-- C10 — confirmed: the matcher's loop terminates on every input balance
list.  Each iteration's transfer equals the minimum of the current creditor
balance and debtor deficit, which drives at least one of them to exactly 0
(strictly below the epsilon), so a cursor advances every iteration and fuel
`creditors.length + debtors.length` always suffices. -/
theorem claim_C10 (currency : String) (cs ds : List UserBalance) :
    (matchGo currency (cs.length + ds.length) cs ds).isSome = true := by
  obtain ⟨s, hs, _⟩ := matchGo_total currency (cs.length + ds.length) cs ds le_rfl
  rw [hs]
  rfl

end Divix
